import Mathlib

/-!
Verification of the Memco memory store against its specification.

Part 1 — the binary record codec (`src/memco/mem.py`).

Byte strings are modelled as `List ℕ`; a Python `float`/`double` field is
modelled by its packed 4- or 8-byte representation, so `struct.pack`/`unpack`
of a fixed-size number is the identity on the stored byte block.  zlib
compression is an external library and is modelled as an explicit
`compress`/`decompress` function pair.
-/

set_option maxHeartbeats 1000000
set_option linter.unnecessarySeqFocus false
set_option linter.unusedVariables false

namespace Memco

/-- Byte strings: lists of naturals. -/
abbrev Bytes := List ℕ

/-- The "absent" sentinel length `0xFFFFFFFF` used by the codec. -/
def sentinel : ℕ := 4294967295

/-- `struct.pack('<I', n)`: four little-endian bytes. -/
def u32le (n : ℕ) : Bytes := [n % 256, n / 256 % 256, n / 65536 % 256, n / 16777216 % 256]

/-- `struct.unpack_from('<I', data, off)`: reads four bytes, raising
(`none`) when fewer than four bytes remain at `off`. -/
def readU32 (data : Bytes) (off : ℕ) : Option ℕ :=
  match (data.drop off).take 4 with
  | [b0, b1, b2, b3] => some (b0 + 256 * b1 + 65536 * b2 + 16777216 * b3)
  | _ => none

/-- `struct.unpack_from('<f', data, off)`: the 4-byte block of a float32,
bounds-checked. -/
def readF32 (data : Bytes) (off : ℕ) : Option Bytes :=
  if 4 ≤ (data.drop off).length then some ((data.drop off).take 4) else none

/-- `struct.unpack_from('<d', data, off)`: the 8-byte block of a float64,
bounds-checked. -/
def readF64 (data : Bytes) (off : ℕ) : Option Bytes :=
  if 8 ≤ (data.drop off).length then some ((data.drop off).take 8) else none

/-- `struct.unpack_from('<?', data, off)`: one byte, nonzero means `True`. -/
def readBool (data : Bytes) (off : ℕ) : Option Bool :=
  match (data.drop off).take 1 with
  | [b] => some (decide (b ≠ 0))
  | _ => none

/-- `encode_str`: `None` becomes the sentinel, otherwise a 4-byte length
prefix followed by the UTF-8 bytes. -/
def encode_str : Option Bytes → Bytes
  | none => u32le sentinel
  | some s => u32le s.length ++ s

/-- A UTF-8 continuation byte `0x80`–`0xBF`. -/
def utf8Cont (b : ℕ) : Bool := decide (128 ≤ b) && decide (b ≤ 191)

/-- The success domain of strict `bytes.decode('utf-8')` (RFC 3629): ASCII
bytes stand alone; `C2`–`DF` lead one continuation byte; `E0`/`ED` restrict
their first continuation to exclude overlong forms and surrogates, the other
three-byte leads `E1`–`EC`, `EE`–`EF` take two free continuations; `F0`/`F4`
restrict their first continuation to the planes `U+10000`–`U+10FFFF`, with
`F1`–`F3` in between; everything else (`80`–`C1`, `F5` and up, or a truncated
sequence) makes the decode raise `UnicodeDecodeError`. -/
def utf8Valid : Bytes → Bool
  | [] => true
  | b :: rest =>
    if b ≤ 127 then utf8Valid rest
    else if 194 ≤ b ∧ b ≤ 223 then
      match rest with
      | c1 :: rest2 => utf8Cont c1 && utf8Valid rest2
      | [] => false
    else if b = 224 then
      match rest with
      | c1 :: c2 :: rest3 =>
        (decide (160 ≤ c1) && decide (c1 ≤ 191)) && utf8Cont c2 && utf8Valid rest3
      | _ => false
    else if (225 ≤ b ∧ b ≤ 236) ∨ (238 ≤ b ∧ b ≤ 239) then
      match rest with
      | c1 :: c2 :: rest3 => utf8Cont c1 && utf8Cont c2 && utf8Valid rest3
      | _ => false
    else if b = 237 then
      match rest with
      | c1 :: c2 :: rest3 =>
        (decide (128 ≤ c1) && decide (c1 ≤ 159)) && utf8Cont c2 && utf8Valid rest3
      | _ => false
    else if b = 240 then
      match rest with
      | c1 :: c2 :: c3 :: rest4 =>
        (decide (144 ≤ c1) && decide (c1 ≤ 191)) && utf8Cont c2 && utf8Cont c3 &&
          utf8Valid rest4
      | _ => false
    else if 241 ≤ b ∧ b ≤ 243 then
      match rest with
      | c1 :: c2 :: c3 :: rest4 =>
        utf8Cont c1 && utf8Cont c2 && utf8Cont c3 && utf8Valid rest4
      | _ => false
    else if b = 244 then
      match rest with
      | c1 :: c2 :: c3 :: rest4 =>
        (decide (128 ≤ c1) && decide (c1 ≤ 143)) && utf8Cont c2 && utf8Cont c3 &&
          utf8Valid rest4
      | _ => false
    else false

/-- `decode_str`: reads the length prefix; the sentinel yields `None`;
otherwise Python slicing `data[offset:offset+length]` is taken — note the
slice silently truncates when `length` overruns the buffer — and the slice is
passed through `.decode('utf-8')`, which raises `UnicodeDecodeError` (here
`none`) when the sliced bytes are not valid UTF-8. -/
def decode_str (data : Bytes) (off : ℕ) : Option (Option Bytes × ℕ) :=
  match readU32 data off with
  | none => none
  | some len =>
    if len = sentinel then some (none, off + 4)
    else
      let s := (data.drop (off + 4)).take len
      if utf8Valid s then some (some s, off + 4 + len) else none

/-- `encode_embedding`: count prefix then each component as 4 packed bytes. -/
def encode_embedding : Option (List Bytes) → Bytes
  | none => u32le sentinel
  | some v => u32le v.length ++ v.flatten

/-- The `for _ in range(length)` loop of `decode_embedding`. -/
def decode_f32s (data : Bytes) : ℕ → ℕ → Option (List Bytes × ℕ)
  | off, 0 => some ([], off)
  | off, n + 1 =>
    match readF32 data off with
    | none => none
    | some f =>
      match decode_f32s data (off + 4) n with
      | none => none
      | some (fs, off') => some (f :: fs, off')

/-- `decode_embedding`. -/
def decode_embedding (data : Bytes) (off : ℕ) : Option (Option (List Bytes) × ℕ) :=
  match readU32 data off with
  | none => none
  | some len =>
    if len = sentinel then some (none, off + 4)
    else
      match decode_f32s data (off + 4) len with
      | none => none
      | some (fs, off') => some (some fs, off')

/-- `encode_list_str`: count prefix then each item via `encode_str`. -/
def encode_list_str : Option (List (Option Bytes)) → Bytes
  | none => u32le sentinel
  | some l => u32le l.length ++ (l.map encode_str).flatten

/-- The `for _ in range(length)` loop of `decode_list_str`. -/
def decode_strs (data : Bytes) : ℕ → ℕ → Option (List (Option Bytes) × ℕ)
  | off, 0 => some ([], off)
  | off, n + 1 =>
    match decode_str data off with
    | none => none
    | some (s, off') =>
      match decode_strs data off' n with
      | none => none
      | some (l, off'') => some (s :: l, off'')

/-- `decode_list_str`. -/
def decode_list_str (data : Bytes) (off : ℕ) : Option (Option (List (Option Bytes)) × ℕ) :=
  match readU32 data off with
  | none => none
  | some len =>
    if len = sentinel then some (none, off + 4)
    else
      match decode_strs data (off + 4) len with
      | none => none
      | some (l, off') => some (some l, off')

/-- `str(v)` applied to a metadata value before encoding: identity on a
string, the literal text `"None"` on Python `None`. -/
def pyStrOf : Option Bytes → Bytes
  | none => [78, 111, 110, 101]
  | some b => b

/-- `encode_dict`: count prefix then each key/value, the value stringified. -/
def encode_dict : Option (List (Option Bytes × Option Bytes)) → Bytes
  | none => u32le sentinel
  | some kvs => u32le kvs.length ++ (kvs.map (fun kv => encode_str kv.1 ++ encode_str (some (pyStrOf kv.2)))).flatten

/-- The `for _ in range(length)` loop of `decode_dict`. -/
def decode_kvs (data : Bytes) : ℕ → ℕ → Option (List (Option Bytes × Option Bytes) × ℕ)
  | off, 0 => some ([], off)
  | off, n + 1 =>
    match decode_str data off with
    | none => none
    | some (k, off') =>
      match decode_str data off' with
      | none => none
      | some (v, off'') =>
        match decode_kvs data off'' n with
        | none => none
        | some (l, off''') => some ((k, v) :: l, off''')

/-- `decode_dict`. -/
def decode_dict (data : Bytes) (off : ℕ) : Option (Option (List (Option Bytes × Option Bytes)) × ℕ) :=
  match readU32 data off with
  | none => none
  | some len =>
    if len = sentinel then some (none, off + 4)
    else
      match decode_kvs data (off + 4) len with
      | none => none
      | some (l, off') => some (some l, off')

/-- A record as the codec sees it: exactly the dictionary fields that
`serialize_mem` reads, with 32- and 64-bit floats kept as their packed bytes. -/
structure Mem where
  id : Option Bytes
  content : Option Bytes
  tags : Option (List (Option Bytes))
  metadata : Option (List (Option Bytes × Option Bytes))
  importance : Bytes
  created_at : Bytes
  updated_at : Bytes
  source : Option Bytes
  embedding : Option (List Bytes)
  encrypted : Bool
deriving DecidableEq

/-- The uncompressed field concatenation built by `serialize_mem`. -/
def mem_raw (m : Mem) : Bytes :=
  encode_str m.id ++ (encode_str m.content ++ (encode_list_str m.tags ++ (encode_dict m.metadata ++
    (m.importance ++ (m.created_at ++ (m.updated_at ++ (encode_str m.source ++
    (encode_embedding m.embedding ++ [if m.encrypted then 1 else 0]))))))))

/-- `serialize_mem`: compress the raw fields, prefix the compressed size. -/
def serialize_mem (compress : Bytes → Bytes) (m : Mem) : Bytes :=
  u32le (compress (mem_raw m)).length ++ compress (mem_raw m)

/-- `deserialize_mem`: read the compressed block, decompress, then decode
the field sequence. -/
def deserialize_mem (decompress : Bytes → Bytes) (data : Bytes) (off : ℕ) : Option (Mem × ℕ) :=
  match readU32 data off with
  | none => none
  | some clen =>
    let raw := decompress ((data.drop (off + 4)).take clen)
    match decode_str raw 0 with
    | none => none
    | some (id_, i1) =>
      match decode_str raw i1 with
      | none => none
      | some (content, i2) =>
        match decode_list_str raw i2 with
        | none => none
        | some (tags, i3) =>
          match decode_dict raw i3 with
          | none => none
          | some (metadata, i4) =>
            match readF32 raw i4 with
            | none => none
            | some imp =>
              match readF64 raw (i4 + 4) with
              | none => none
              | some created =>
                match readF64 raw (i4 + 12) with
                | none => none
                | some updated =>
                  match decode_str raw (i4 + 20) with
                  | none => none
                  | some (source, i5) =>
                    match decode_embedding raw i5 with
                    | none => none
                    | some (embedding, i6) =>
                      match readBool raw i6 with
                      | none => none
                      | some enc =>
                        some (⟨id_, content, tags, metadata, imp, created, updated,
                               source, embedding, enc⟩, off + 4 + clen)

/-- Well-formedness of an optional string field: present strings are
shorter than the sentinel count and are valid UTF-8 (they come from
`str.encode('utf-8')`, so this is forced in the source). -/
def wfStr : Option Bytes → Prop
  | none => True
  | some s => s.length < sentinel ∧ utf8Valid s = true

instance : DecidablePred wfStr := fun s => by unfold wfStr; cases s <;> infer_instance

/-- Well-formedness of a record for the round-trip: every count fits below
the sentinel, floats have their packed sizes, metadata values are present
strings (`str` leaves them unchanged). -/
def Mem.wf (m : Mem) : Prop :=
  wfStr m.id ∧ wfStr m.content ∧
  (match m.tags with
   | none => True
   | some ts => ts.length < sentinel ∧ ∀ s ∈ ts, wfStr s) ∧
  (match m.metadata with
   | none => True
   | some kvs => kvs.length < sentinel ∧
       ∀ kv ∈ kvs, wfStr kv.1 ∧
         ∃ v, kv.2 = some v ∧ v.length < sentinel ∧ utf8Valid v = true) ∧
  m.importance.length = 4 ∧ m.created_at.length = 8 ∧ m.updated_at.length = 8 ∧
  wfStr m.source ∧
  (match m.embedding with
   | none => True
   | some e => e.length < sentinel ∧ ∀ f ∈ e, f.length = 4)

end Memco

/-!
Part 2 — the record table, history log, encryption codec and MemQL engine
(`src/memcore/memcore.py`), modelled at value level: strings are Lean
strings, floats are exact rationals, the file system is an association
list from name to content, and the wall clock is an explicit parameter.
-/

namespace Memcore

/-! Python string primitives used by the engine, over `String.data`. -/

/-- `str.upper()` (ASCII). -/
def pyUpper (s : String) : String := ⟨s.data.map Char.toUpper⟩

/-- `str.lower()` (ASCII). -/
def pyLower (s : String) : String := ⟨s.data.map Char.toLower⟩

/-- Python whitespace for `str.strip()`. -/
def isWS (c : Char) : Bool := c == ' ' || c == '\t' || c == '\n' || c == '\r'

/-- `str.strip()`. -/
def pyStrip (s : String) : String :=
  ⟨((s.data.dropWhile isWS).reverse.dropWhile isWS).reverse⟩

/-- Scan for the first occurrence of `sub`, as `str.find` does. -/
def findL (sub : List Char) : List Char → ℕ → Option ℕ
  | [], i => if sub.isEmpty then some i else none
  | c :: cs, i => if sub.isPrefixOf (c :: cs) then some i else findL sub cs (i + 1)

/-- `str.find(sub)`: first index, `-1` when absent. -/
def pyFind (s sub : String) : ℤ :=
  match findL sub.data s.data 0 with
  | none => -1
  | some i => (i : ℤ)

/-- `sub in s` (substring containment). -/
def pyContains (s sub : String) : Bool := (findL sub.data s.data 0).isSome

/-- `str.startswith`. -/
def pyStartsWith (s pre : String) : Bool := pre.data.isPrefixOf s.data

/-- `str.endswith`. -/
def pyEndsWith (s suf : String) : Bool := suf.data.isSuffixOf s.data

/-- `s[i:]` for a non-negative index. -/
def pySliceFrom (s : String) (i : ℤ) : String := ⟨s.data.drop i.toNat⟩

/-- `s[:i]` for a non-negative index. -/
def pySliceTo (s : String) (i : ℤ) : String := ⟨s.data.take i.toNat⟩

/-- `s[i:j]` for non-negative indices. -/
def pySlice (s : String) (i j : ℤ) : String := ⟨(s.data.take j.toNat).drop i.toNat⟩

/-- `s[1:-1]`, used to strip surrounding quotes. -/
def pyDropEnds (s : String) : String := ⟨(s.data.drop 1).dropLast⟩

/-- Worker for `str.split(sep)` with a non-empty separator; the fuel is
the input length, enough for the scan to finish (structural recursion so
that the kernel can evaluate it). -/
def splitFuel (sep : List Char) : ℕ → List Char → List Char → List (List Char)
  | 0, _, acc => [acc.reverse]
  | _ + 1, [], acc => [acc.reverse]
  | fuel + 1, c :: cs, acc =>
    if sep.isPrefixOf (c :: cs) ∧ sep.length ≠ 0 then
      acc.reverse :: splitFuel sep fuel ((c :: cs).drop sep.length) []
    else splitFuel sep fuel cs (c :: acc)

/-- `s.split(sep)`. -/
def pySplit (s sep : String) : List String :=
  (splitFuel sep.data s.data.length s.data []).map (⟨·⟩)

/-- Worker for whitespace `str.split()` (drops empty fields). -/
def splitWSGo : List Char → List Char → List (List Char)
  | [], acc => if acc.isEmpty then [] else [acc.reverse]
  | c :: cs, acc =>
    if isWS c then (if acc.isEmpty then splitWSGo cs [] else acc.reverse :: splitWSGo cs [])
    else splitWSGo cs (c :: acc)

/-- `s.split()` with no argument. -/
def pySplitWS (s : String) : List String := (splitWSGo s.data []).map (⟨·⟩)

/-- Worker for `str.replace` with a non-empty pattern; the fuel is the
input length, enough for the scan to finish (structural recursion so
that the kernel can evaluate it). -/
def replaceFuel (old new : List Char) : ℕ → List Char → List Char
  | 0, s => s
  | _ + 1, [] => []
  | fuel + 1, c :: cs =>
    if old.isPrefixOf (c :: cs) ∧ old.length ≠ 0 then
      new ++ replaceFuel old new fuel ((c :: cs).drop old.length)
    else c :: replaceFuel old new fuel cs

/-- `s.replace(old, new)`. -/
def pyReplace (s old new : String) : String :=
  ⟨replaceFuel old.data new.data s.data.length s.data⟩

/-- Worker for `str.split(sep, 1)`: the text before and after the first
separator, `none` when the separator is absent (Python unpacking raises). -/
def splitFirstGo (sep : Char) : List Char → List Char → Option (List Char × List Char)
  | [], _ => none
  | c :: cs, acc => if c == sep then some (acc.reverse, cs) else splitFirstGo sep cs (c :: acc)

/-- A stored memory record: the dictionary written by `MemoryRecord.to_dict`
plus the `encrypted` flag added by `MemTable.add_memory`. -/
structure MemoryRecord where
  id : String
  content : String
  tags : List String
  metadata : List (String × String)
  importance : ℚ
  created_at : ℚ
  updated_at : ℚ
  source : String
  embedding : List ℚ
  encrypted : Bool
deriving DecidableEq

/-- The `.mem` unit for one record: unreadable (pickle failure) or intact. -/
inductive FileState
  | corrupt
  | ok (m : MemoryRecord)
deriving DecidableEq

/-- `MemTable` state: the in-memory index (mirrored to `index.json`) and
the per-record `.mem` units; a missing name means no file on disk. -/
structure MemTableState where
  memories : List (String × MemoryRecord)
  files : List (String × FileState)
deriving DecidableEq

/-- Keyed lookup on an association list (Python dictionary access). -/
def lookupA {β : Type} : List (String × β) → String → Option β
  | [], _ => none
  | p :: t, k => if p.1 = k then some p.2 else lookupA t k

/-- `d[k] = v` on an association list (replace or append). -/
def setAssoc {β : Type} (l : List (String × β)) (k : String) (v : β) : List (String × β) :=
  if l.any (fun p => decide (p.1 = k)) then l.map (fun p => if p.1 = k then (k, v) else p)
  else l ++ [(k, v)]

/-- `del d[k]` / file removal on an association list. -/
def delAssoc {β : Type} (l : List (String × β)) (k : String) : List (String × β) :=
  l.filter (fun p => decide (p.1 ≠ k))

/-- The file-or-fallback read shared by `get_memory` and `query`: load the
`.mem` unit when it exists and is readable, otherwise fall back to the
in-memory index copy. -/
def resolveRecord (files : List (String × FileState)) (id : String) (m : MemoryRecord) :
    MemoryRecord :=
  match lookupA files id with
  | some (.ok m') => m'
  | some .corrupt => m
  | none => m

/-- `MemTable.get_memory`. -/
def MemTableState.get_memory (tbl : MemTableState) (id : String) : Option MemoryRecord :=
  match lookupA tbl.memories id with
  | none => none
  | some m => some (resolveRecord tbl.files id m)

/-- A typed field value, matching what the Python callers put in a field
dictionary. -/
inductive FieldVal
  | s (v : String)
  | q (v : ℚ)
  | ls (v : List String)
  | kv (v : List (String × String))
  | emb (v : List ℚ)
  | b (v : Bool)
deriving DecidableEq

/-- One step of `MemTable.update_memory`'s field loop:
`if key in memory and key != "id": memory[key] = value`.  The record
dictionary has every field (including `encrypted`), `id` is rejected and
unknown keys are skipped. -/
def setFieldDict (m : MemoryRecord) : String × FieldVal → MemoryRecord
  | ("content", .s v) => { m with content := v }
  | ("tags", .ls v) => { m with tags := v }
  | ("metadata", .kv v) => { m with metadata := v }
  | ("importance", .q v) => { m with importance := v }
  | ("created_at", .q v) => { m with created_at := v }
  | ("updated_at", .q v) => { m with updated_at := v }
  | ("source", .s v) => { m with source := v }
  | ("embedding", .emb v) => { m with embedding := v }
  | ("encrypted", .b v) => { m with encrypted := v }
  | _ => m

/-- One step of `MemCore.update_memory`'s field loop:
`if hasattr(memory, key) and key != "id": setattr(...)`.  A
`MemoryRecord` object has no `encrypted` attribute, so that key is
skipped here. -/
def setFieldObj (m : MemoryRecord) : String × FieldVal → MemoryRecord
  | ("content", .s v) => { m with content := v }
  | ("tags", .ls v) => { m with tags := v }
  | ("metadata", .kv v) => { m with metadata := v }
  | ("importance", .q v) => { m with importance := v }
  | ("created_at", .q v) => { m with created_at := v }
  | ("updated_at", .q v) => { m with updated_at := v }
  | ("source", .s v) => { m with source := v }
  | ("embedding", .emb v) => { m with embedding := v }
  | _ => m

/-- `MemTable.update_memory`: resolve the record, apply the field changes
(`id` rejected), stamp `updated_at` with the current time, and write both
the index and the `.mem` unit. -/
def MemTableState.update_memory (tbl : MemTableState) (now : ℚ) (id : String)
    (fields : List (String × FieldVal)) : Bool × MemTableState :=
  match tbl.get_memory id with
  | none => (false, tbl)
  | some m =>
    let m' := { fields.foldl setFieldDict m with updated_at := now }
    (true, ⟨setAssoc tbl.memories id m', setAssoc tbl.files id (.ok m')⟩)

/-- `MemTable.delete_memory`. -/
def MemTableState.delete_memory (tbl : MemTableState) (id : String) : Bool × MemTableState :=
  if tbl.memories.any (fun p => decide (p.1 = id)) then
    (true, ⟨delAssoc tbl.memories id, delAssoc tbl.files id⟩)
  else (false, tbl)

/-- The loop of `MemTable.query`: for each index entry, re-read the
`.mem` unit when possible (in-memory fallback otherwise), and keep the
records passing the filter.  A filter that raises (`none`) aborts the
whole scan. -/
def queryGo (files : List (String × FileState)) (pred : MemoryRecord → Option Bool) :
    List (String × MemoryRecord) → Option (List MemoryRecord)
  | [] => some []
  | (id, m) :: rest =>
    let mm := resolveRecord files id m
    match pred mm with
    | none => none
    | some b =>
      match queryGo files pred rest with
      | none => none
      | some rs => some (if b then mm :: rs else rs)

/-- `MemTable.query`. -/
def MemTableState.query (tbl : MemTableState) (pred : MemoryRecord → Option Bool) :
    Option (List MemoryRecord) :=
  queryGo tbl.files pred tbl.memories

/-- `MemoryBuilder.set_importance`: clamp to `[0, 1]`. -/
def MemoryBuilder.set_importance (m : MemoryRecord) (x : ℚ) : MemoryRecord :=
  { m with importance := max 0 (min 1 x) }

/-- `MemCore.get_memory` with no encryption key configured: the decrypt
pass leaves the record unchanged, so this is the table read. -/
def MemCore.get_memory (tbl : MemTableState) (id : String) : Option MemoryRecord :=
  tbl.get_memory id

/-- `MemCore.update_memory` (keyless store): read the record, apply the
field changes at object level (`id` rejected, `encrypted` not an
attribute), re-derive the embedding when `content` was in the changes,
and hand the full field dictionary minus `id` to the table.  The
history/vector side effects do not touch the table state. -/
def MemCore.update_memory (embed : String → List ℚ) (tbl : MemTableState) (now : ℚ)
    (id : String) (fields : List (String × FieldVal)) : Bool × MemTableState :=
  match MemCore.get_memory tbl id with
  | none => (false, tbl)
  | some m =>
    let m1 := fields.foldl setFieldObj m
    let m2 := if fields.any (fun p => p.1 == "content") then
                { m1 with embedding := embed m1.content }
              else m1
    tbl.update_memory now id
      [("content", .s m2.content), ("tags", .ls m2.tags), ("metadata", .kv m2.metadata),
       ("importance", .q m2.importance), ("created_at", .q m2.created_at),
       ("updated_at", .q m2.updated_at), ("source", .s m2.source),
       ("embedding", .emb m2.embedding)]

/-- `MemCore.delete_memory` (keyless store): read, then delete from the
table; history/vector side effects do not touch the table state. -/
def MemCore.delete_memory (tbl : MemTableState) (id : String) : Bool × MemTableState :=
  match MemCore.get_memory tbl id with
  | none => (false, tbl)
  | some _ => tbl.delete_memory id

/-! The history log (`MemHistory`), for a single record id: an association
list from filename to pickled snapshot.  Writing an existing filename
overwrites that unit. -/

/-- `MemHistory.add_history`: write `<timestamp>_<action>.memh`. -/
def MemHistory.add_history (d : List (String × MemoryRecord)) (timestamp action : String)
    (m : MemoryRecord) : List (String × MemoryRecord) :=
  setAssoc d (timestamp ++ "_" ++ action ++ ".memh") m

/-- Lexicographic code-point comparison, Python string `<`. -/
def strLtB : List Char → List Char → Bool
  | [], [] => false
  | [], _ :: _ => true
  | _ :: _, [] => false
  | a :: as, b :: bs =>
    if a.toNat < b.toNat then true
    else if b.toNat < a.toNat then false
    else strLtB as bs

/-- Ascending insertion used to model Python `sorted` over filenames. -/
def insertStrAsc (x : String) : List String → List String
  | [] => [x]
  | y :: ys => if strLtB x.data y.data then x :: y :: ys else y :: insertStrAsc x ys

/-- Python `sorted` over filenames (lexicographic). -/
def sortStr : List String → List String
  | [] => []
  | x :: xs => insertStrAsc x (sortStr xs)

/-- `MemHistory.get_history`: sorted filename pass; each `.memh` unit
yields `(timestamp, action, snapshot)` with the name split at the first
underscore and the extension stripped from the action. -/
def MemHistory.get_history (d : List (String × MemoryRecord)) :
    List (String × String × MemoryRecord) :=
  (sortStr (d.map (·.1))).filterMap fun fn =>
    if pyEndsWith fn ".memh" then
      match splitFirstGo '_' fn.data [] with
      | none => none
      | some (ts, rest) =>
        match lookupA d fn with
        | none => none
        | some snap => some (⟨ts⟩, pyReplace ⟨rest⟩ ".memh" "", snap)
    else none

/-! The encryption codec (`MemCore._decrypt_data`). -/

/-- The JSON-like values `_decrypt_data` walks: strings, lists,
string-keyed dictionaries, and other scalars (returned unchanged). -/
inductive PyData
  | str (s : String)
  | list (xs : List PyData)
  | dict (kvs : List (String × PyData))
  | num (q : ℚ)

/-- The recursive walk of `_decrypt_data` once a key is configured:
`Fernet.decrypt` is the external `dec` function; when it fails (`none`)
the original string is returned instead of raising. -/
def decryptGo (dec : String → Option String) : PyData → PyData
  | .str s => .str ((dec s).getD s)
  | .list xs => .list (xs.attach.map fun x => decryptGo dec x.1)
  | .dict kvs => .dict (kvs.attach.map fun kv => (kv.1.1, decryptGo dec kv.1.2))
  | .num q => .num q
  termination_by d => sizeOf d
  decreasing_by
  · have h := List.sizeOf_lt_of_mem x.2
    simp only [PyData.list.sizeOf_spec]
    omega
  · rcases kv with ⟨⟨a, b⟩, hmem⟩
    have h := List.sizeOf_lt_of_mem hmem
    simp only [Prod.mk.sizeOf_spec] at h
    simp only [PyData.dict.sizeOf_spec]
    omega

/-- `MemCore._decrypt_data`: identity when no key is configured. -/
def decryptData (key : Option (String → Option String)) (d : PyData) : PyData :=
  match key with
  | none => d
  | some dec => decryptGo dec d

/-!
Part 3 — the MemQL engine (`MemQLParser`), for a keyless store: query
text is parsed by string surgery exactly as the source does; `float` and
`int` literal parsing are the external Python builtins, passed as
functions returning `none` on a parse error (a raised `ValueError`);
the embedding provider is an external function. -/

/-- The prepared tag for surrounding double quotes on a literal. -/
def dq : String := "\""

/-- A single quote character, for `'...'` literals. -/
def sq : String := ⟨[Char.ofNat 39]⟩

/-- Strip one pair of surrounding double quotes, as the filter branches do. -/
def stripDQ (v : String) : String :=
  if pyStartsWith v dq && pyEndsWith v dq then pyDropEnds v else v

/-- Strip one pair of surrounding double or single quotes, as the
`CREATE`/`UPDATE` assignment parser does. -/
def stripQuotes (v : String) : String :=
  if pyStartsWith v dq && pyEndsWith v dq then pyDropEnds v
  else if pyStartsWith v sq && pyEndsWith v sq then pyDropEnds v
  else v

/-- The `filter_func` closure of `_execute_select` on the structural
(non-vector) path: dispatch by substring tests on the `WHERE` text, in
source order; an unparsable numeric literal raises (`none`); a clause
matching no recognised field falls through to `return True`. -/
def filterFunc (pf : String → Option ℚ) (wc : String) (m : MemoryRecord) : Option Bool :=
  if wc = "" then some true
  else if pyContains wc "tags" && pyContains wc "=" then
    match (pySplit wc "=").get? 1 with
    | none => none
    | some v0 =>
      let v := stripDQ (pyStrip v0)
      some (m.tags.any fun t => pyContains (pyLower t) (pyLower v))
  else if pyContains wc "encrypted" && pyContains wc "=" then
    match (pySplit wc "=").get? 1 with
    | none => none
    | some v0 =>
      let v := stripDQ (pyStrip v0)
      some (m.encrypted == (pyLower v == "true"))
  else if pyContains wc "content" && pyContains wc "=" then
    match (pySplit wc "=").get? 1 with
    | none => none
    | some v0 =>
      let v := stripDQ (pyStrip v0)
      some (pyContains (pyLower m.content) (pyLower v))
  else if pyContains wc "id" && pyContains wc "=" then
    match (pySplit wc "=").get? 1 with
    | none => none
    | some v0 =>
      let v := stripDQ (pyStrip v0)
      some (pyLower m.id == pyLower v)
  else if pyContains wc "importance" && pyContains wc ">=" then
    match (pySplit wc ">=").get? 1 with
    | none => none
    | some v0 =>
      match pf (pyStrip v0) with
      | none => none
      | some q => some (decide (q ≤ m.importance))
  else if pyContains wc "importance" && pyContains wc "<=" then
    match (pySplit wc "<=").get? 1 with
    | none => none
    | some v0 =>
      match pf (pyStrip v0) with
      | none => none
      | some q => some (decide (m.importance ≤ q))
  else if pyContains wc "importance" && pyContains wc ">" then
    match (pySplit wc ">").get? 1 with
    | none => none
    | some v0 =>
      match pf (pyStrip v0) with
      | none => none
      | some q => some (decide (q < m.importance))
  else if pyContains wc "importance" && pyContains wc "<" then
    match (pySplit wc "<").get? 1 with
    | none => none
    | some v0 =>
      match pf (pyStrip v0) with
      | none => none
      | some q => some (decide (m.importance < q))
  else if pyContains wc "created_at" && pyContains wc ">=" then
    match (pySplit wc ">=").get? 1 with
    | none => none
    | some v0 =>
      match pf (pyStrip v0) with
      | none => none
      | some q => some (decide (q ≤ m.created_at))
  else if pyContains wc "created_at" && pyContains wc "<=" then
    match (pySplit wc "<=").get? 1 with
    | none => none
    | some v0 =>
      match pf (pyStrip v0) with
      | none => none
      | some q => some (decide (m.created_at ≤ q))
  else if pyContains wc "created_at" && pyContains wc ">" then
    match (pySplit wc ">").get? 1 with
    | none => none
    | some v0 =>
      match pf (pyStrip v0) with
      | none => none
      | some q => some (decide (q < m.created_at))
  else if pyContains wc "created_at" && pyContains wc "<" then
    match (pySplit wc "<").get? 1 with
    | none => none
    | some v0 =>
      match pf (pyStrip v0) with
      | none => none
      | some q => some (decide (m.created_at < q))
  else if pyContains wc "updated_at" && pyContains wc ">=" then
    match (pySplit wc ">=").get? 1 with
    | none => none
    | some v0 =>
      match pf (pyStrip v0) with
      | none => none
      | some q => some (decide (q ≤ m.updated_at))
  else if pyContains wc "updated_at" && pyContains wc "<=" then
    match (pySplit wc "<=").get? 1 with
    | none => none
    | some v0 =>
      match pf (pyStrip v0) with
      | none => none
      | some q => some (decide (m.updated_at ≤ q))
  else if pyContains wc "updated_at" && pyContains wc ">" then
    match (pySplit wc ">").get? 1 with
    | none => none
    | some v0 =>
      match pf (pyStrip v0) with
      | none => none
      | some q => some (decide (q < m.updated_at))
  else if pyContains wc "updated_at" && pyContains wc "<" then
    match (pySplit wc "<").get? 1 with
    | none => none
    | some v0 =>
      match pf (pyStrip v0) with
      | none => none
      | some q => some (decide (m.updated_at < q))
  else if pyContains wc "source" && pyContains wc "=" then
    match (pySplit wc "=").get? 1 with
    | none => none
    | some v0 =>
      let v := stripDQ (pyStrip v0)
      some (pyContains (pyLower m.source) (pyLower v))
  else some true

/-- Stable ascending insertion by a rational key (Python `list.sort`). -/
def insertAscQ {α : Type} (key : α → ℚ) (x : α) : List α → List α
  | [] => [x]
  | y :: ys => if key y < key x then y :: insertAscQ key x ys else x :: y :: ys

/-- Stable ascending sort by a rational key. -/
def sortAscQ {α : Type} (key : α → ℚ) : List α → List α
  | [] => []
  | x :: xs => insertAscQ key x (sortAscQ key xs)

/-- Stable descending insertion by a rational key
(`list.sort(reverse=True)`). -/
def insertDescQ {α : Type} (key : α → ℚ) (x : α) : List α → List α
  | [] => [x]
  | y :: ys => if key x < key y then y :: insertDescQ key x ys else x :: y :: ys

/-- Stable descending sort by a rational key. -/
def sortDescQ {α : Type} (key : α → ℚ) : List α → List α
  | [] => []
  | x :: xs => insertDescQ key x (sortDescQ key xs)

/-- `results.sort(key=..., reverse=rev)`. -/
def pySortBy {α : Type} (key : α → ℚ) (rev : Bool) (l : List α) : List α :=
  if rev then sortDescQ key l else sortAscQ key l

/-- `_execute_select` for a keyless store, structural path: extract the
`WHERE`, `ORDER BY` and `LIMIT` clauses by the source's string surgery,
filter via `MemTable.query`, sort, and truncate to the limit (default 50,
`LIMIT 0` meaning no cap).  The `VECTOR` path calls the external
embedding provider and is modelled as unavailable (`none`). -/
def executeSelect (pf : String → Option ℚ) (pint : String → Option ℤ)
    (tbl : MemTableState) (query0 : String) : Option (List MemoryRecord) :=
  let query := if pyStartsWith (pyUpper query0) "SELECT" then query0 else "SELECT " ++ query0
  let wc0 :=
    if pyContains (pyUpper query) "WHERE" then
      pySliceFrom query (pyFind (pyUpper query) "WHERE" + 5)
    else ""
  let wc :=
    if pyContains (pyUpper wc0) "ORDER BY" then
      pyStrip (pySliceTo wc0 (pyFind (pyUpper wc0) "ORDER BY"))
    else wc0
  let ob0 :=
    if pyContains (pyUpper query) "ORDER BY" then
      pyStrip (pySliceFrom query (pyFind (pyUpper query) "ORDER BY" + 8))
    else ""
  let ob :=
    if pyContains (pyUpper ob0) "DESC" then (pyStrip (pyReplace (pyUpper ob0) "DESC" ""), true)
    else (ob0, false)
  match (if pyContains (pyUpper query) "LIMIT" then
           pint (pyStrip (pySliceFrom query (pyFind (pyUpper query) "LIMIT" + 5)))
         else some 50) with
  | none => none
  | some limit =>
    if pyContains (pyUpper query) "VECTOR" then none
    else
      match (if pyContains (pyUpper query) "SCORE" then
               (pf (pyStrip (pySliceFrom query (pyFind (pyUpper query) "SCORE" + 6)))).map
                 (fun _ => ())
             else some ()) with
      | none => none
      | some _ =>
        match tbl.query (filterFunc pf wc) with
        | none => none
        | some results =>
          let sorted :=
            if ob.1 ≠ "" then
              if pyLower ob.1 == "importance" then pySortBy (·.importance) ob.2 results
              else if pyLower ob.1 == "created_at" then pySortBy (·.created_at) ob.2 results
              else if pyLower ob.1 == "updated_at" then pySortBy (·.updated_at) ob.2 results
              else if pyLower ob.1 == "similarity_score" then
                pySortBy (fun _ => (0 : ℚ)) ob.2 results
              else results
            else results
          some (if 0 < limit then sorted.take limit.toNat else sorted)

/-- The deletion loop of `_execute_delete`: delete each selected record
in order, collecting the ones whose deletion succeeded. -/
def deleteLoop : MemTableState → List MemoryRecord → List MemoryRecord × MemTableState
  | tbl, [] => ([], tbl)
  | tbl, m :: ms =>
    match MemCore.delete_memory tbl m.id with
    | (true, tbl') =>
      let r := deleteLoop tbl' ms
      (m :: r.1, r.2)
    | (false, tbl') => deleteLoop tbl' ms

/-- `_execute_delete`: `DELETE *` enumerates through an uncapped select;
otherwise the text after `WHERE` is re-run through a `SELECT WHERE` and
each hit deleted. -/
def executeDelete (pf : String → Option ℚ) (pint : String → Option ℤ)
    (tbl : MemTableState) (query : String) : Option (List MemoryRecord × MemTableState) :=
  if pyUpper (pyStrip query) == "DELETE *" then
    match executeSelect pf pint tbl "SELECT LIMIT 0" with
    | none => none
    | some ms => some (deleteLoop tbl ms)
  else
    let wc := pyStrip (pySliceFrom query (pyFind (pyUpper query) "WHERE" + 5))
    match executeSelect pf pint tbl ("SELECT WHERE " ++ wc) with
    | none => none
    | some ms => some (deleteLoop tbl ms)

/-- Convert one `SET` assignment value: `importance` through `float(...)`
(which may raise), `tags` through whitespace splitting, any other field is
the raw string. -/
def parseSetVal (pf : String → Option ℚ) (key v : String) : Option FieldVal :=
  if key == "importance" then (pf v).map .q
  else if key == "tags" then some (.ls ((pySplitWS v).map pyStrip))
  else some (.s v)

/-- Modelled from the spec: the `SET` clause parsing loop of
`_execute_update` — comma-separated `key=value` pairs, values unquoted,
parts without `=` skipped.  These source lines sit inside
`_execute_update`, whose body does not parse (see `executeUpdate`), so
the loop has no Python semantics as written; the definition follows the
spec's description of `UPDATE ... SET`, which coincides with the evident
intended indentation of the source lines. -/
def parseSetParts (pf : String → Option ℚ) : List String → Option (List (String × FieldVal))
  | [] => some []
  | part :: rest =>
    if pyContains part "=" then
      match splitFirstGo '=' part.data [] with
      | none => none
      | some (k, vcs) =>
        let key := pyStrip ⟨k⟩
        let v := stripQuotes (pyStrip ⟨vcs⟩)
        match parseSetVal pf key v with
        | none => none
        | some fv =>
          match parseSetParts pf rest with
          | none => none
          | some l => some ((key, fv) :: l)
    else parseSetParts pf rest

/-- The update loop of `_execute_update`: update each selected record in
order, re-reading and collecting the ones whose update succeeded. -/
def updateLoop (embed : String → List ℚ) (now : ℚ) (fields : List (String × FieldVal)) :
    MemTableState → List MemoryRecord → List MemoryRecord × MemTableState
  | tbl, [] => ([], tbl)
  | tbl, m :: ms =>
    match MemCore.update_memory embed tbl now m.id fields with
    | (true, tbl') =>
      let r := updateLoop embed now fields tbl' ms
      match MemCore.get_memory tbl' m.id with
      | some um => (um :: r.1, r.2)
      | none => r
    | (false, tbl') => updateLoop embed now fields tbl' ms

/-- Modelled from the spec: `_execute_update` — extract the `SET` and
`WHERE` clauses, parse the field assignments, select the targets through
`_execute_select`, and update each.  The source text of this method is
syntactically invalid: the line after the `WHERE` lookup dedents to an
indentation level matching no enclosing block (`IndentationError` at
`memcore.py:970`), so importing the module raises and no `UPDATE`
statement can actually run.  This definition follows the spec's
description of the `UPDATE` statement, which coincides with the evident
intended indentation of the source lines. -/
def executeUpdate (pf : String → Option ℚ) (pint : String → Option ℤ)
    (embed : String → List ℚ) (tbl : MemTableState) (now : ℚ) (query : String) :
    Option (List MemoryRecord × MemTableState) :=
  let sc :=
    if pyContains (pyUpper query) "SET" then
      if pyContains (pyUpper query) "WHERE" then
        pyStrip (pySlice query (pyFind (pyUpper query) "SET" + 3) (pyFind (pyUpper query) "WHERE"))
      else pyStrip (pySliceFrom query (pyFind (pyUpper query) "SET" + 3))
    else ""
  let wcl :=
    if pyContains (pyUpper query) "SET" && pyContains (pyUpper query) "WHERE" then
      pyStrip (pySliceFrom query (pyFind (pyUpper query) "WHERE" + 5))
    else ""
  match parseSetParts pf (pySplit sc ",") with
  | none => none
  | some fields =>
    match executeSelect pf pint tbl (if wcl ≠ "" then "SELECT WHERE " ++ wcl else "SELECT") with
    | none => none
    | some ms => some (updateLoop embed now fields tbl ms)

/-- `MemQLParser.execute`: strip, dispatch on the statement keyword.  The
`CREATE MEM` path builds a fresh record through the external uuid and
clock and is modelled as unavailable (`none`); no claim exercises it. -/
def MemQL.execute (pf : String → Option ℚ) (pint : String → Option ℤ)
    (embed : String → List ℚ) (tbl : MemTableState) (now : ℚ) (query0 : String) :
    Option (List MemoryRecord × MemTableState) :=
  let query := pyStrip query0
  if pyStartsWith (pyUpper query) "CREATE MEM" then none
  else if pyStartsWith (pyUpper query) "DELETE" then executeDelete pf pint tbl query
  else if pyStartsWith (pyUpper query) "UPDATE" then executeUpdate pf pint embed tbl now query
  else (executeSelect pf pint tbl query).map (fun ms => (ms, tbl))

end Memcore

/-!
Part 4 — the vector index (`src/memco/vector_search.py`).  Numpy float
arithmetic is idealised over the reals: `np.dot` is the finite dot
product, `np.linalg.norm` the Euclidean norm, and the stored rows are the
`(id, vector)` pairs in insertion order.
-/

namespace Memco

/-- `np.dot` on equal-length vectors. -/
def dotR (a b : List ℝ) : ℝ := (List.zipWith (fun x y => x * y) a b).sum

/-- `np.linalg.norm`. -/
noncomputable def normR (a : List ℝ) : ℝ := Real.sqrt ((a.map fun x => x * x).sum)

/-- `np.all(a == 0)`. -/
def allZero (a : List ℝ) : Prop := ∀ x ∈ a, x = 0

open Classical in
/-- `VectorSearch._cosine_similarity`: `0.0` when either vector is all
zero, otherwise `dot(a,b) / (|a| * |b|)`. -/
noncomputable def cosineSimilarity (a b : List ℝ) : ℝ :=
  if allZero a ∨ allZero b then 0 else dotR a b / (normR a * normR b)

open Classical in
/-- Stable descending insertion by a real key, modelling
`similarities.sort(key=lambda x: x[1], reverse=True)`. -/
noncomputable def insertDescR {α : Type} (key : α → ℝ) (x : α) : List α → List α
  | [] => [x]
  | y :: ys => if key x < key y then y :: insertDescR key x ys else x :: y :: ys

/-- Stable descending sort by a real key. -/
noncomputable def sortDescR {α : Type} (key : α → ℝ) : List α → List α
  | [] => []
  | x :: xs => insertDescR key x (sortDescR key xs)

/-- `VectorSearch.search`: score every stored row against the query by
cosine similarity, sort by descending score, truncate to `top_k`. -/
noncomputable def VectorSearch.search (stored : List (String × List ℝ)) (q : List ℝ)
    (topK : ℕ) : List (String × ℝ) :=
  (sortDescR (fun p => p.2) (stored.map fun p => (p.1, cosineSimilarity q p.2))).take topK

end Memco

/-! ### Codec lemmas: each decoder consumes its encoder's output -/

namespace Memco

theorem readU32_spec (data : Bytes) (off n : ℕ) (tail : Bytes)
    (h : data.drop off = u32le n ++ tail) (hn : n < 4294967296) :
    readU32 data off = some n := by
  simp only [readU32, h, u32le, List.cons_append, List.nil_append, List.take_succ_cons,
    List.take_zero]
  congr 1
  omega

theorem drop_add_of_drop (data : Bytes) (off k : ℕ) (pre tail : Bytes)
    (h : data.drop off = pre ++ tail) (hk : pre.length = k) :
    data.drop (off + k) = tail := by
  have h2 : (data.drop off).drop k = data.drop (off + k) := by
    rw [List.drop_drop, Nat.add_comm]
  rw [← h2, h, List.drop_left' hk]

theorem u32le_length (n : ℕ) : (u32le n).length = 4 := rfl

theorem decode_str_spec (data : Bytes) (off : ℕ) (s : Option Bytes) (rest : Bytes)
    (hwf : wfStr s) (hd : data.drop off = encode_str s ++ rest) :
    decode_str data off = some (s, off + (encode_str s).length) ∧
      data.drop (off + (encode_str s).length) = rest := by
  cases s with
  | none =>
    have hr : readU32 data off = some sentinel :=
      readU32_spec data off sentinel rest hd (by norm_num [sentinel])
    constructor
    · simp [decode_str, hr, encode_str, u32le]
    · simpa [encode_str] using drop_add_of_drop data off 4 (u32le sentinel) rest hd rfl
  | some d =>
    have hwf' : d.length < sentinel := hwf.1
    have hv : utf8Valid d = true := hwf.2
    have hd' : data.drop off = u32le d.length ++ (d ++ rest) := by
      simpa [encode_str] using hd
    have hr : readU32 data off = some d.length :=
      readU32_spec data off d.length (d ++ rest) hd' (by simp [sentinel] at hwf'; omega)
    have hdrop4 : data.drop (off + 4) = d ++ rest :=
      drop_add_of_drop data off 4 (u32le d.length) (d ++ rest) hd' rfl
    have hlen : (encode_str (some d)).length = 4 + d.length := by
      simp only [encode_str, u32le, List.length_append, List.length_cons, List.length_nil]
    constructor
    · simp only [decode_str, hr]
      rw [if_neg (by omega)]
      simp [hdrop4, List.take_left, hv, hlen, Nat.add_assoc]
    · rw [hlen, ← Nat.add_assoc]
      exact drop_add_of_drop data (off + 4) d.length d rest hdrop4 rfl

theorem readF32_spec (data : Bytes) (off : ℕ) (f tail : Bytes)
    (hf : f.length = 4) (hd : data.drop off = f ++ tail) :
    readF32 data off = some f ∧ data.drop (off + 4) = tail := by
  refine ⟨?_, drop_add_of_drop data off 4 f tail hd hf⟩
  simp [readF32, hd, List.take_left' hf, hf]

theorem readF64_spec (data : Bytes) (off : ℕ) (f tail : Bytes)
    (hf : f.length = 8) (hd : data.drop off = f ++ tail) :
    readF64 data off = some f ∧ data.drop (off + 8) = tail := by
  refine ⟨?_, drop_add_of_drop data off 8 f tail hd hf⟩
  simp [readF64, hd, List.take_left' hf, hf]

theorem readBool_spec (data : Bytes) (off : ℕ) (b : ℕ) (tail : Bytes)
    (hd : data.drop off = [b] ++ tail) :
    readBool data off = some (decide (b ≠ 0)) := by
  simp [readBool, hd]

theorem decode_strs_spec (l : List (Option Bytes)) (hwf : ∀ s ∈ l, wfStr s) :
    ∀ (data : Bytes) (off : ℕ) (rest : Bytes),
      data.drop off = (l.map encode_str).flatten ++ rest →
      decode_strs data off l.length =
          some (l, off + (l.map encode_str).flatten.length) ∧
        data.drop (off + (l.map encode_str).flatten.length) = rest := by
  induction l with
  | nil => intro data off rest hd; simp_all [decode_strs]
  | cons s l ih =>
    intro data off rest hd
    have hd1 : data.drop off = encode_str s ++ ((l.map encode_str).flatten ++ rest) := by
      simpa using hd
    obtain ⟨h1, h1d⟩ := decode_str_spec data off s _ (hwf s (by simp)) hd1
    obtain ⟨h2, h2d⟩ := ih (fun x hx => hwf x (by simp [hx])) data
      (off + (encode_str s).length) rest h1d
    have hlen : ((s :: l).map encode_str).flatten.length =
        (encode_str s).length + (l.map encode_str).flatten.length := by
      simp
    refine ⟨?_, ?_⟩
    · simp only [List.length_cons, decode_strs, h1, h2, hlen, Nat.add_assoc]
    · rw [hlen, ← Nat.add_assoc]
      exact h2d

theorem decode_list_str_spec (data : Bytes) (off : ℕ) (t : Option (List (Option Bytes)))
    (rest : Bytes)
    (hwf : match t with
           | none => True
           | some ts => ts.length < sentinel ∧ ∀ s ∈ ts, wfStr s)
    (hd : data.drop off = encode_list_str t ++ rest) :
    decode_list_str data off = some (t, off + (encode_list_str t).length) ∧
      data.drop (off + (encode_list_str t).length) = rest := by
  cases t with
  | none =>
    have hr : readU32 data off = some sentinel :=
      readU32_spec data off sentinel rest (by simpa [encode_list_str] using hd)
        (by norm_num [sentinel])
    constructor
    · simp [decode_list_str, hr, encode_list_str, u32le]
    · simpa [encode_list_str] using
        drop_add_of_drop data off 4 (u32le sentinel) rest (by simpa [encode_list_str] using hd) rfl
  | some ts =>
    obtain ⟨hlt, hws⟩ := hwf
    have hd' : data.drop off = u32le ts.length ++ ((ts.map encode_str).flatten ++ rest) := by
      simpa [encode_list_str] using hd
    have hr : readU32 data off = some ts.length :=
      readU32_spec data off ts.length _ hd' (by simp [sentinel] at hlt; omega)
    have hdrop4 : data.drop (off + 4) = (ts.map encode_str).flatten ++ rest :=
      drop_add_of_drop data off 4 (u32le ts.length) _ hd' rfl
    obtain ⟨h2, h2d⟩ := decode_strs_spec ts hws data (off + 4) rest hdrop4
    have hlen : (encode_list_str (some ts)).length =
        4 + (ts.map encode_str).flatten.length := by
      simp only [encode_list_str, u32le, List.length_append, List.length_cons, List.length_nil]
    constructor
    · simp only [decode_list_str, hr]
      rw [if_neg (by omega)]
      simp [h2, hlen, Nat.add_assoc]
    · rw [hlen, ← Nat.add_assoc]
      exact h2d

theorem decode_kvs_spec (l : List (Option Bytes × Option Bytes))
    (hwf : ∀ kv ∈ l, wfStr kv.1 ∧
      ∃ v, kv.2 = some v ∧ v.length < sentinel ∧ utf8Valid v = true) :
    ∀ (data : Bytes) (off : ℕ) (rest : Bytes),
      data.drop off =
          (l.map (fun kv => encode_str kv.1 ++ encode_str (some (pyStrOf kv.2)))).flatten ++
            rest →
      decode_kvs data off l.length =
          some (l, off +
            (l.map (fun kv => encode_str kv.1 ++ encode_str (some (pyStrOf kv.2)))).flatten.length) ∧
        data.drop (off +
          (l.map (fun kv => encode_str kv.1 ++ encode_str (some (pyStrOf kv.2)))).flatten.length) =
          rest := by
  induction l with
  | nil => intro data off rest hd; simp_all [decode_kvs]
  | cons kv l ih =>
    intro data off rest hd
    obtain ⟨k1, v2⟩ := kv
    obtain ⟨hk, v, hv, hvl, hvu⟩ := hwf (k1, v2) (by simp)
    simp only at hk hv hvl hvu
    subst hv
    have hd1 : data.drop off = encode_str k1 ++ (encode_str (some v) ++
        ((l.map (fun kv => encode_str kv.1 ++ encode_str (some (pyStrOf kv.2)))).flatten ++
          rest)) := by
      simpa [pyStrOf] using hd
    obtain ⟨h1, h1d⟩ := decode_str_spec data off k1 _ hk hd1
    have hwv : wfStr (some v) := ⟨hvl, hvu⟩
    obtain ⟨h2, h2d⟩ := decode_str_spec data (off + (encode_str k1).length)
      (some v) _ hwv h1d
    obtain ⟨h3, h3d⟩ := ih (fun x hx => hwf x (by simp [hx])) data _ rest h2d
    have hlen : (((k1, some v) :: l).map
        (fun kv => encode_str kv.1 ++ encode_str (some (pyStrOf kv.2)))).flatten.length =
        (encode_str k1).length + ((encode_str (some v)).length +
          (l.map (fun kv => encode_str kv.1 ++ encode_str (some (pyStrOf kv.2)))).flatten.length) := by
      simp [pyStrOf, Nat.add_assoc]
    refine ⟨?_, ?_⟩
    · simp only [List.length_cons, decode_kvs, h1, h2, Nat.add_assoc]
      rw [← Nat.add_assoc off (List.length (encode_str k1)) (List.length (encode_str (some v))),
        h3, hlen]
      simp [Nat.add_assoc]
    · rw [hlen, ← Nat.add_assoc, ← Nat.add_assoc]
      simpa [Nat.add_assoc] using h3d

theorem decode_dict_spec (data : Bytes) (off : ℕ)
    (t : Option (List (Option Bytes × Option Bytes))) (rest : Bytes)
    (hwf : match t with
           | none => True
           | some kvs => kvs.length < sentinel ∧
               ∀ kv ∈ kvs, wfStr kv.1 ∧
                 ∃ v, kv.2 = some v ∧ v.length < sentinel ∧ utf8Valid v = true)
    (hd : data.drop off = encode_dict t ++ rest) :
    decode_dict data off = some (t, off + (encode_dict t).length) ∧
      data.drop (off + (encode_dict t).length) = rest := by
  cases t with
  | none =>
    have hr : readU32 data off = some sentinel :=
      readU32_spec data off sentinel rest (by simpa [encode_dict] using hd)
        (by norm_num [sentinel])
    constructor
    · simp [decode_dict, hr, encode_dict, u32le]
    · simpa [encode_dict] using
        drop_add_of_drop data off 4 (u32le sentinel) rest (by simpa [encode_dict] using hd) rfl
  | some kvs =>
    obtain ⟨hlt, hws⟩ := hwf
    have hd' : data.drop off = u32le kvs.length ++
        ((kvs.map (fun kv => encode_str kv.1 ++ encode_str (some (pyStrOf kv.2)))).flatten ++
          rest) := by
      simpa [encode_dict] using hd
    have hr : readU32 data off = some kvs.length :=
      readU32_spec data off kvs.length _ hd' (by simp [sentinel] at hlt; omega)
    have hdrop4 : data.drop (off + 4) =
        (kvs.map (fun kv => encode_str kv.1 ++ encode_str (some (pyStrOf kv.2)))).flatten ++
          rest :=
      drop_add_of_drop data off 4 (u32le kvs.length) _ hd' rfl
    obtain ⟨h2, h2d⟩ := decode_kvs_spec kvs hws data (off + 4) rest hdrop4
    have hlen : (encode_dict (some kvs)).length = 4 +
        (kvs.map (fun kv => encode_str kv.1 ++ encode_str (some (pyStrOf kv.2)))).flatten.length := by
      simp only [encode_dict, u32le, List.length_append, List.length_cons, List.length_nil]
    constructor
    · simp only [decode_dict, hr]
      rw [if_neg (by omega)]
      simp [h2, hlen, Nat.add_assoc]
    · rw [hlen, ← Nat.add_assoc]
      exact h2d

theorem decode_f32s_spec (l : List Bytes) (hwf : ∀ f ∈ l, f.length = 4) :
    ∀ (data : Bytes) (off : ℕ) (rest : Bytes),
      data.drop off = l.flatten ++ rest →
      decode_f32s data off l.length = some (l, off + l.flatten.length) ∧
        data.drop (off + l.flatten.length) = rest := by
  induction l with
  | nil => intro data off rest hd; simp_all [decode_f32s]
  | cons f l ih =>
    intro data off rest hd
    have hf : f.length = 4 := hwf f (by simp)
    have hd1 : data.drop off = f ++ (l.flatten ++ rest) := by simpa using hd
    obtain ⟨h1, h1d⟩ := readF32_spec data off f _ hf hd1
    obtain ⟨h2, h2d⟩ := ih (fun x hx => hwf x (by simp [hx])) data (off + 4) rest h1d
    have hlen : (f :: l).flatten.length = 4 + l.flatten.length := by simp [hf]
    refine ⟨?_, ?_⟩
    · simp only [List.length_cons, decode_f32s, h1, h2, hlen, Nat.add_assoc]
    · rw [hlen, ← Nat.add_assoc]
      exact h2d

theorem decode_embedding_spec (data : Bytes) (off : ℕ) (t : Option (List Bytes)) (rest : Bytes)
    (hwf : match t with
           | none => True
           | some e => e.length < sentinel ∧ ∀ f ∈ e, f.length = 4)
    (hd : data.drop off = encode_embedding t ++ rest) :
    decode_embedding data off = some (t, off + (encode_embedding t).length) ∧
      data.drop (off + (encode_embedding t).length) = rest := by
  cases t with
  | none =>
    have hr : readU32 data off = some sentinel :=
      readU32_spec data off sentinel rest (by simpa [encode_embedding] using hd)
        (by norm_num [sentinel])
    constructor
    · simp [decode_embedding, hr, encode_embedding, u32le]
    · simpa [encode_embedding] using
        drop_add_of_drop data off 4 (u32le sentinel) rest
          (by simpa [encode_embedding] using hd) rfl
  | some e =>
    obtain ⟨hlt, hws⟩ := hwf
    have hd' : data.drop off = u32le e.length ++ (e.flatten ++ rest) := by
      simpa [encode_embedding] using hd
    have hr : readU32 data off = some e.length :=
      readU32_spec data off e.length _ hd' (by simp [sentinel] at hlt; omega)
    have hdrop4 : data.drop (off + 4) = e.flatten ++ rest :=
      drop_add_of_drop data off 4 (u32le e.length) _ hd' rfl
    obtain ⟨h2, h2d⟩ := decode_f32s_spec e hws data (off + 4) rest hdrop4
    have hlen : (encode_embedding (some e)).length = 4 + e.flatten.length := by
      simp only [encode_embedding, u32le, List.length_append, List.length_cons, List.length_nil]
    constructor
    · simp only [decode_embedding, hr]
      rw [if_neg (by omega)]
      simp [h2, hlen, Nat.add_assoc]
    · rw [hlen, ← Nat.add_assoc]
      exact h2d

end Memco

namespace Memco

theorem take_compressed (compress : Bytes → Bytes) (m : Mem) :
    ((serialize_mem compress m).drop (0 + 4)).take (compress (mem_raw m)).length =
      compress (mem_raw m) := by
  have h : (serialize_mem compress m).drop (0 + 4) = compress (mem_raw m) := by
    have h2 : ((u32le (compress (mem_raw m)).length : Bytes) ++
        compress (mem_raw m)).drop (0 + 4) = compress (mem_raw m) :=
      List.drop_left' (by simp [u32le])
    simpa [serialize_mem] using h2
  rw [h, List.take_length]

/-- C1.  Round-trip of the record codec: for every well-formed record —
including records whose `tags`, `metadata` or `embedding` are absent
(`None`) or present but empty — deserialising the bytes produced by
`serialize_mem` yields the record field for field, together with the
offset just past the record.  The compressor is the external zlib pair,
assumed lossless on this payload and producing a block whose size fits
the 4-byte header. -/
theorem serialize_roundtrip (compress decompress : Bytes → Bytes) (m : Mem)
    (hwf : m.wf)
    (hzlib : decompress (compress (mem_raw m)) = mem_raw m)
    (hfit : (compress (mem_raw m)).length < 4294967296) :
    deserialize_mem decompress (serialize_mem compress m) 0 =
      some (m, (serialize_mem compress m).length) := by
  obtain ⟨h1, h2, h3, h4, h5, h6, h7, h8, h9⟩ := hwf
  have hread : readU32 (serialize_mem compress m) 0 = some (compress (mem_raw m)).length := by
    refine readU32_spec _ 0 _ (compress (mem_raw m)) ?_ hfit
    simp [serialize_mem]
  have hC := take_compressed compress m
  have hd0 : (mem_raw m).drop 0 = encode_str m.id ++ (encode_str m.content ++
      (encode_list_str m.tags ++ (encode_dict m.metadata ++ (m.importance ++
      (m.created_at ++ (m.updated_at ++ (encode_str m.source ++
      (encode_embedding m.embedding ++ [if m.encrypted then 1 else 0])))))))) := by
    rw [List.drop_zero]; rfl
  obtain ⟨e1, d1⟩ := decode_str_spec (mem_raw m) 0 m.id _ h1 hd0
  obtain ⟨e2, d2⟩ := decode_str_spec (mem_raw m) _ m.content _ h2 d1
  obtain ⟨e3, d3⟩ := decode_list_str_spec (mem_raw m) _ m.tags _ h3 d2
  obtain ⟨e4, d4⟩ := decode_dict_spec (mem_raw m) _ m.metadata _ h4 d3
  obtain ⟨e5, d5⟩ := readF32_spec (mem_raw m) _ m.importance _ h5 d4
  obtain ⟨e6, d6⟩ := readF64_spec (mem_raw m) _ m.created_at _ h6 d5
  set o4 := 0 + (encode_str m.id).length + (encode_str m.content).length +
    (encode_list_str m.tags).length + (encode_dict m.metadata).length with ho4
  have d6' : (mem_raw m).drop (o4 + 12) = m.updated_at ++ (encode_str m.source ++
      (encode_embedding m.embedding ++ [if m.encrypted then 1 else 0])) := by
    have harith : o4 + 12 = o4 + 4 + 8 := by omega
    rw [harith]; exact d6
  obtain ⟨e7, d7⟩ := readF64_spec (mem_raw m) (o4 + 12) m.updated_at _ h7 d6'
  have d7' : (mem_raw m).drop (o4 + 20) = encode_str m.source ++
      (encode_embedding m.embedding ++ [if m.encrypted then 1 else 0]) := by
    have harith : o4 + 20 = o4 + 12 + 8 := by omega
    rw [harith]; exact d7
  obtain ⟨e8, d8⟩ := decode_str_spec (mem_raw m) (o4 + 20) m.source _ h8 d7'
  obtain ⟨e9, d9⟩ := decode_embedding_spec (mem_raw m) _ m.embedding _ h9 d8
  have d9' : (mem_raw m).drop (o4 + 20 + (encode_str m.source).length +
      (encode_embedding m.embedding).length) =
      [if m.encrypted then 1 else 0] ++ [] := by
    simpa using d9
  have ebool := readBool_spec (mem_raw m) _ _ _ d9'
  have hbit : decide ((if m.encrypted then (1 : ℕ) else 0) ≠ 0) = m.encrypted := by
    cases m.encrypted <;> simp
  rw [hbit] at ebool
  have hlen : (serialize_mem compress m).length = 0 + 4 + (compress (mem_raw m)).length := by
    simp only [serialize_mem, u32le, List.length_append, List.length_cons, List.length_nil]
  rw [hlen]
  simp only [deserialize_mem, hread, hC, hzlib, e1, e2, e3, e4, e5, e6, e7, e8, e9, ebool]

/-- Witness for C1: a concrete record exercising present-but-empty `tags`,
absent `metadata`, a one-component embedding and the `encrypted` flag,
round-tripped with the identity compressor pair. -/
theorem serialize_roundtrip_witness :
    deserialize_mem (fun b => b)
        (serialize_mem (fun b => b)
          (Mem.mk (some [97]) (some [104, 105]) (some []) none [0, 0, 0, 63]
            [0, 0, 0, 0, 0, 0, 240, 63] [0, 0, 0, 0, 0, 0, 240, 63] (some [])
            (some [[0, 0, 128, 63]]) true)) 0 =
      some ((Mem.mk (some [97]) (some [104, 105]) (some []) none [0, 0, 0, 63]
            [0, 0, 0, 0, 0, 0, 240, 63] [0, 0, 0, 0, 0, 0, 240, 63] (some [])
            (some [[0, 0, 128, 63]]) true),
        (serialize_mem (fun b => b)
          (Mem.mk (some [97]) (some [104, 105]) (some []) none [0, 0, 0, 63]
            [0, 0, 0, 0, 0, 0, 240, 63] [0, 0, 0, 0, 0, 0, 240, 63] (some [])
            (some [[0, 0, 128, 63]]) true)).length) :=
  serialize_roundtrip (fun b => b) (fun b => b) _
    (by constructor <;> simp [wfStr, sentinel] <;> decide) rfl (by decide)

theorem readU32_bound (data : Bytes) (off n : ℕ) (h : readU32 data off = some n) :
    off + 4 ≤ data.length := by
  by_contra hc
  push_neg at hc
  have h2 : ((data.drop off).take 4).length < 4 := by
    rw [List.length_take, List.length_drop]; omega
  unfold readU32 at h
  rcases ht : (data.drop off).take 4 with _ | ⟨b0, _ | ⟨b1, _ | ⟨b2, _ | ⟨b3, rest⟩⟩⟩⟩ <;>
    rw [ht] at h h2 <;> simp_all <;> omega

/-- C2 (counterexample).  The buffer `[5,0,0,0,97,98]` declares a string
length of 5 with only 2 bytes remaining, yet `decode_str` does not fail:
it returns the truncated bytes `[97,98]` and an offset (9) beyond the end
of the 6-byte buffer.  No `CorruptRecord` failure exists in the codec. -/
theorem decode_str_overrun_succeeds :
    decode_str [5, 0, 0, 0, 97, 98] 0 ≠ none ∧
      decode_str [5, 0, 0, 0, 97, 98] 0 = some (some [97, 98], 9) ∧
      ([5, 0, 0, 0, 97, 98] : Bytes).length < 0 + 4 + 5 := by
  refine ⟨?_, ?_, by decide⟩ <;> decide

/-- C2 (amended).  When a declared length prefix exceeds the bytes
remaining in the buffer, `decode_str` performs no bounds validation at
all: Python slicing silently truncates, so whenever the truncated slice
is valid UTF-8 (always so for ASCII payloads) decoding succeeds with a
string strictly shorter than declared and an offset past the end of the
buffer, and the only failure it can raise is `UnicodeDecodeError` from
`.decode('utf-8')` on a truncated slice that is not valid UTF-8 — never
a `CorruptRecord` or bounds error. -/
theorem decode_str_truncates (data : Bytes) (off len : ℕ)
    (hr : readU32 data off = some len) (hs : len ≠ sentinel)
    (hover : data.length < off + 4 + len) :
    (utf8Valid ((data.drop (off + 4)).take len) = true →
      ∃ s, decode_str data off = some (some s, off + 4 + len) ∧ s.length < len) ∧
      (utf8Valid ((data.drop (off + 4)).take len) = false →
        decode_str data off = none) := by
  constructor
  · intro hv
    refine ⟨(data.drop (off + 4)).take len, ?_, ?_⟩
    · simp [decode_str, hr, hs, hv]
    · have h4 := readU32_bound data off len hr
      rw [List.length_take, List.length_drop]
      omega
  · intro hv
    simp [decode_str, hr, hs, hv]

/-- Witness for the amended C2: the overrun buffer `[5,0,0,0,97,98]`
truncates to the valid ASCII slice `[97,98]` and decodes past the buffer
end, while `[5,0,0,0,195]` truncates to a lone UTF-8 lead byte and the
decode raises. -/
theorem decode_str_truncates_witness :
    (∃ s, decode_str [5, 0, 0, 0, 97, 98] 0 = some (some s, 0 + 4 + 5) ∧ s.length < 5) ∧
      decode_str [5, 0, 0, 0, 195] 0 = none :=
  ⟨(decode_str_truncates [5, 0, 0, 0, 97, 98] 0 5 (by decide) (by decide)
        (by decide)).1 (by decide),
    (decode_str_truncates [5, 0, 0, 0, 195] 0 5 (by decide) (by decide)
        (by decide)).2 (by decide)⟩

end Memco

/-! ### Record table lemmas -/

namespace Memcore

theorem lookupA_map_replace {β : Type} (l : List (String × β)) (k : String) (v : β) :
    lookupA (l.map (fun p => if p.1 = k then (k, v) else p)) k =
      if l.any (fun p => decide (p.1 = k)) then some v else none := by
  induction l with
  | nil => simp [lookupA]
  | cons p t ih =>
    by_cases hp : p.1 = k
    · simp [lookupA, hp]
    · have hd : decide (p.1 = k) = false := decide_eq_false hp
      simp only [List.map_cons, lookupA, if_neg hp, ih, List.any_cons, hd, Bool.false_or]

theorem lookupA_append_single {β : Type} (l : List (String × β)) (k : String) (v : β)
    (h : l.any (fun p => decide (p.1 = k)) = false) : lookupA (l ++ [(k, v)]) k = some v := by
  induction l with
  | nil => simp [lookupA]
  | cons p t ih =>
    simp only [List.any_cons, Bool.or_eq_false_iff, decide_eq_false_iff_not] at h
    simp [lookupA, h.1, ih (by simpa using h.2)]

theorem lookupA_setAssoc {β : Type} (l : List (String × β)) (k : String) (v : β) :
    lookupA (setAssoc l k v) k = some v := by
  unfold setAssoc
  by_cases h : l.any (fun p => decide (p.1 = k))
  · rw [if_pos h, lookupA_map_replace, if_pos h]
  · have hf : l.any (fun p => decide (p.1 = k)) = false := by
      cases hx : l.any (fun p => decide (p.1 = k))
      · rfl
      · exact absurd hx h
    rw [if_neg h, lookupA_append_single _ _ _ hf]

theorem mem_delAssoc {β : Type} (l : List (String × β)) (k : String) (p : String × β)
    (hp : p ∈ l) (hne : p.1 ≠ k) : p ∈ delAssoc l k := by
  refine List.mem_filter.mpr ⟨hp, ?_⟩
  simpa using hne

theorem setFieldDict_id (m : MemoryRecord) (p : String × FieldVal) :
    (setFieldDict m p).id = m.id := by
  rcases p with ⟨k, v⟩
  unfold setFieldDict
  split <;> rfl

theorem foldl_setFieldDict_id (fields : List (String × FieldVal)) (m : MemoryRecord) :
    (fields.foldl setFieldDict m).id = m.id := by
  induction fields generalizing m with
  | nil => rfl
  | cons p t ih => rw [List.foldl_cons, ih, setFieldDict_id]

theorem update_true_get (tbl : MemTableState) (now : ℚ) (id : String)
    (fields : List (String × FieldVal)) (tbl' : MemTableState)
    (h : tbl.update_memory now id fields = (true, tbl')) :
    ∃ m, tbl.get_memory id = some m := by
  unfold MemTableState.update_memory at h
  cases hg : tbl.get_memory id with
  | none => rw [hg] at h; simp at h
  | some m => exact ⟨m, rfl⟩

theorem get_after_update (tbl : MemTableState) (now : ℚ) (id : String)
    (fields : List (String × FieldVal)) (m : MemoryRecord) (tbl' : MemTableState)
    (hget : tbl.get_memory id = some m)
    (hupd : tbl.update_memory now id fields = (true, tbl')) :
    tbl'.get_memory id = some { fields.foldl setFieldDict m with updated_at := now } := by
  unfold MemTableState.update_memory at hupd
  rw [hget] at hupd
  obtain ⟨-, rfl⟩ := Prod.mk.injEq .. ▸ hupd
  unfold MemTableState.get_memory resolveRecord
  rw [lookupA_setAssoc, lookupA_setAssoc]

theorem memcore_update_spec (embed : String → List ℚ) (tbl : MemTableState) (now : ℚ)
    (id : String) (fields : List (String × FieldVal)) (tbl' : MemTableState)
    (h : MemCore.update_memory embed tbl now id fields = (true, tbl')) :
    ∃ m0 m', MemCore.get_memory tbl id = some m0 ∧
      MemCore.get_memory tbl' id = some m' ∧ m'.id = m0.id ∧ m'.updated_at = now := by
  unfold MemCore.update_memory at h
  cases hg : MemCore.get_memory tbl id with
  | none => rw [hg] at h; simp at h
  | some m0 =>
    rw [hg] at h
    obtain ⟨mt, hmt⟩ := update_true_get _ _ _ _ _ h
    have hmt0 : mt = m0 := Option.some.inj (hmt.symm.trans hg)
    subst hmt0
    have hget' := get_after_update tbl now id _ mt tbl' hmt h
    exact ⟨mt, _, rfl, hget', foldl_setFieldDict_id _ mt, rfl⟩

/-- C7.  After any successful update the record keeps its id (`update`
rejects id changes at both layers), `updated_at` is refreshed to the
current clock value, `updated_at ≥ created_at` holds whenever the stored
`created_at` does not lie in the clock's future, and a later re-update at
a strictly later clock strictly increases `updated_at`. -/
theorem update_invariants (embed : String → List ℚ) (tbl : MemTableState) (now1 now2 : ℚ)
    (id : String) (f1 f2 : List (String × FieldVal)) (tbl1 tbl2 : MemTableState)
    (h1 : MemCore.update_memory embed tbl now1 id f1 = (true, tbl1))
    (h2 : MemCore.update_memory embed tbl1 now2 id f2 = (true, tbl2))
    (hlt : now1 < now2) :
    ∃ m0 m1 m2, MemCore.get_memory tbl id = some m0 ∧
      MemCore.get_memory tbl1 id = some m1 ∧ MemCore.get_memory tbl2 id = some m2 ∧
      m1.id = m0.id ∧ m2.id = m0.id ∧
      m1.updated_at = now1 ∧ m2.updated_at = now2 ∧
      (m1.created_at ≤ now1 → m1.created_at ≤ m1.updated_at) ∧
      m1.updated_at < m2.updated_at := by
  obtain ⟨a0, a1, hg0, hg1, hid1, hu1⟩ := memcore_update_spec embed tbl now1 id f1 tbl1 h1
  obtain ⟨b1, b2, hg1', hg2, hid2, hu2⟩ := memcore_update_spec embed tbl1 now2 id f2 tbl2 h2
  have hb : b1 = a1 := Option.some.inj (hg1'.symm.trans hg1)
  refine ⟨a0, a1, b2, hg0, hg1, hg2, hid1, ?_, hu1, hu2, ?_, ?_⟩
  · rw [hid2, hb, hid1]
  · intro hc; rw [hu1]; exact hc
  · rw [hu1, hu2]; exact hlt

/-- Witness for C7: two successive updates of a one-record store at
clock values 1 and 2. -/
theorem update_invariants_witness :
    ∃ m0 m1 m2,
      MemCore.get_memory ⟨[("a", MemoryRecord.mk "a" "c" [] [] 0 0 0 "" [] false)],
        [("a", FileState.ok (MemoryRecord.mk "a" "c" [] [] 0 0 0 "" [] false))]⟩ "a" = some m0 ∧
      MemCore.get_memory ⟨[("a", MemoryRecord.mk "a" "c" [] [] 0 0 1 "" [] false)],
        [("a", FileState.ok (MemoryRecord.mk "a" "c" [] [] 0 0 1 "" [] false))]⟩ "a" = some m1 ∧
      MemCore.get_memory ⟨[("a", MemoryRecord.mk "a" "c" [] [] 0 0 2 "" [] false)],
        [("a", FileState.ok (MemoryRecord.mk "a" "c" [] [] 0 0 2 "" [] false))]⟩ "a" = some m2 ∧
      m1.id = m0.id ∧ m2.id = m0.id ∧
      m1.updated_at = 1 ∧ m2.updated_at = 2 ∧
      (m1.created_at ≤ 1 → m1.created_at ≤ m1.updated_at) ∧
      m1.updated_at < m2.updated_at :=
  update_invariants (fun _ => []) _ 1 2 "a" [] []
    ⟨[("a", MemoryRecord.mk "a" "c" [] [] 0 0 1 "" [] false)],
      [("a", FileState.ok (MemoryRecord.mk "a" "c" [] [] 0 0 1 "" [] false))]⟩
    ⟨[("a", MemoryRecord.mk "a" "c" [] [] 0 0 2 "" [] false)],
      [("a", FileState.ok (MemoryRecord.mk "a" "c" [] [] 0 0 2 "" [] false))]⟩
    (by decide) (by decide) (by norm_num)

/-- C4 (counterexample).  A stored record with in-range importance 0 is
updated with importance 2; the update succeeds and the stored importance
becomes 2, outside `[0, 1]` — the clamp is not applied on the update
path, so the bound is not preserved by every subsequent operation. -/
theorem update_importance_out_of_range :
    (MemTableState.update_memory
        ⟨[("a", MemoryRecord.mk "a" "c" [] [] 0 0 0 "" [] false)],
         [("a", FileState.ok (MemoryRecord.mk "a" "c" [] [] 0 0 0 "" [] false))]⟩
        9 "a" [("importance", FieldVal.q 2)]).1 = true ∧
      ((MemTableState.update_memory
          ⟨[("a", MemoryRecord.mk "a" "c" [] [] 0 0 0 "" [] false)],
           [("a", FileState.ok (MemoryRecord.mk "a" "c" [] [] 0 0 0 "" [] false))]⟩
          9 "a" [("importance", FieldVal.q 2)]).2.get_memory "a").map
        MemoryRecord.importance = some 2 ∧
      ¬ ((2 : ℚ) ≤ 1) := by
  refine ⟨by decide, by decide, by norm_num⟩

/-- C4 (amended).  `MemoryBuilder.set_importance` clamps to `[0, 1]`
(building with -1 or 2 stores 0 or 1 respectively), but
`MemTable.update_memory` applies no clamp: updating a record's
importance stores the given value verbatim, so the `[0, 1]` bound holds
at build time only and is not preserved by updates. -/
theorem importance_clamped_at_build_only (m : MemoryRecord) (x : ℚ) (tbl : MemTableState)
    (now : ℚ) (id : String) (v : ℚ) (tbl' : MemTableState)
    (hupd : tbl.update_memory now id [("importance", FieldVal.q v)] = (true, tbl')) :
    0 ≤ (MemoryBuilder.set_importance m x).importance ∧
    (MemoryBuilder.set_importance m x).importance ≤ 1 ∧
    (MemoryBuilder.set_importance m (-1)).importance = 0 ∧
    (MemoryBuilder.set_importance m 2).importance = 1 ∧
    ∃ m', tbl'.get_memory id = some m' ∧ m'.importance = v := by
  obtain ⟨mt, hmt⟩ := update_true_get _ _ _ _ _ hupd
  have hget' := get_after_update tbl now id _ mt tbl' hmt hupd
  have hneg : (MemoryBuilder.set_importance m (-1)).importance = 0 := by
    show max 0 (min 1 (-1 : ℚ)) = 0
    norm_num
  have hpos : (MemoryBuilder.set_importance m 2).importance = 1 := by
    show max 0 (min 1 (2 : ℚ)) = 1
    norm_num
  exact ⟨le_max_left _ _, max_le (by norm_num) (min_le_left _ _), hneg, hpos, _, hget', rfl⟩

/-- Witness for the amended C4 at a concrete store and value 2. -/
theorem importance_clamped_at_build_only_witness :
    0 ≤ (MemoryBuilder.set_importance (MemoryRecord.mk "a" "c" [] [] 0 0 0 "" [] false)
        7).importance ∧
    (MemoryBuilder.set_importance (MemoryRecord.mk "a" "c" [] [] 0 0 0 "" [] false)
        7).importance ≤ 1 ∧
    (MemoryBuilder.set_importance (MemoryRecord.mk "a" "c" [] [] 0 0 0 "" [] false)
        (-1)).importance = 0 ∧
    (MemoryBuilder.set_importance (MemoryRecord.mk "a" "c" [] [] 0 0 0 "" [] false)
        2).importance = 1 ∧
    ∃ m', (MemTableState.update_memory
        ⟨[("a", MemoryRecord.mk "a" "c" [] [] 0 0 0 "" [] false)],
         [("a", FileState.ok (MemoryRecord.mk "a" "c" [] [] 0 0 0 "" [] false))]⟩
        9 "a" [("importance", FieldVal.q 2)]).2.get_memory "a" = some m' ∧
      m'.importance = 2 :=
  importance_clamped_at_build_only (MemoryRecord.mk "a" "c" [] [] 0 0 0 "" [] false) 7
    ⟨[("a", MemoryRecord.mk "a" "c" [] [] 0 0 0 "" [] false)],
     [("a", FileState.ok (MemoryRecord.mk "a" "c" [] [] 0 0 0 "" [] false))]⟩
    9 "a" 2
    (MemTableState.update_memory
      ⟨[("a", MemoryRecord.mk "a" "c" [] [] 0 0 0 "" [] false)],
       [("a", FileState.ok (MemoryRecord.mk "a" "c" [] [] 0 0 0 "" [] false))]⟩
      9 "a" [("importance", FieldVal.q 2)]).2
    (by decide)

theorem queryGo_total (files : List (String × FileState)) (pred : MemoryRecord → Bool) :
    ∀ l : List (String × MemoryRecord),
      queryGo files (fun m => some (pred m)) l =
        some ((l.map fun p => resolveRecord files p.1 p.2).filter pred) := by
  intro l
  induction l with
  | nil => rfl
  | cons p t ih =>
    rcases p with ⟨id, m⟩
    simp only [queryGo, ih, List.map_cons, List.filter_cons]

/-- C6 (amended).  `MemTable.query` re-reads each per-record unit when it
exists and is readable, but on a missing or unreadable unit it falls back
to the in-memory index payload and continues: a scan with a total
predicate never aborts and returns one candidate per index entry, and a
record whose unit is corrupt is included via its index copy rather than
skipped. -/
theorem scan_falls_back_not_skips (tbl : MemTableState) (pred : MemoryRecord → Bool) :
    tbl.query (fun m => some (pred m)) =
      some ((tbl.memories.map fun p => resolveRecord tbl.files p.1 p.2).filter pred) ∧
    ∀ id m, (id, m) ∈ tbl.memories → lookupA tbl.files id = some FileState.corrupt →
      pred m = true →
      m ∈ (tbl.memories.map fun p => resolveRecord tbl.files p.1 p.2).filter pred := by
  refine ⟨queryGo_total tbl.files pred tbl.memories, ?_⟩
  intro id m hmem hcorr hpred
  refine List.mem_filter.mpr ⟨?_, ?_⟩
  · refine List.mem_map.mpr ⟨(id, m), hmem, ?_⟩
    simp [resolveRecord, hcorr]
  · have : resolveRecord tbl.files id m = m := by simp [resolveRecord, hcorr]
    simpa [this] using hpred

/-- C6 (counterexample).  A one-record store whose `.mem` unit is
unreadable: the scan does not skip the record; it returns the in-memory
index copy (the claim requires the corrupt record to be skipped, i.e. an
empty result). -/
theorem scan_includes_corrupt_record :
    MemTableState.query
        ⟨[("a", MemoryRecord.mk "a" "c" [] [] 0 0 0 "" [] false)], [("a", FileState.corrupt)]⟩
        (fun _ => some true) =
      some [MemoryRecord.mk "a" "c" [] [] 0 0 0 "" [] false] ∧
    some [MemoryRecord.mk "a" "c" [] [] 0 0 0 "" [] false] ≠
      some ([] : List MemoryRecord) := by
  refine ⟨by decide, by decide⟩

/-- Witness for the amended C6: the corrupt record's index copy is a
member of the scan result of the same store. -/
theorem scan_falls_back_not_skips_witness :
    MemoryRecord.mk "a" "c" [] [] 0 0 0 "" [] false ∈
      (([("a", MemoryRecord.mk "a" "c" [] [] 0 0 0 "" [] false)] :
          List (String × MemoryRecord)).map fun p =>
        resolveRecord [("a", FileState.corrupt)] p.1 p.2).filter (fun _ => true) :=
  (scan_falls_back_not_skips
      ⟨[("a", MemoryRecord.mk "a" "c" [] [] 0 0 0 "" [] false)], [("a", FileState.corrupt)]⟩
      (fun _ => true)).2
    "a" (MemoryRecord.mk "a" "c" [] [] 0 0 0 "" [] false) (by decide) (by decide) (by decide)

theorem decryptGo_fail (dec : String → Option String) (h : ∀ s, dec s = none) :
    ∀ d : PyData, decryptGo dec d = d := by
  intro d
  induction d using decryptGo.induct dec with
  | case1 s => simp [decryptGo, h s]
  | case2 xs ih =>
    rw [decryptGo]
    congr 1
    calc xs.attach.map (fun x => decryptGo dec x.1)
        = xs.attach.map (fun x => x.1) := List.map_congr_left (fun x _ => ih x)
      _ = xs := List.attach_map_subtype_val xs
  | case3 kvs ih =>
    rw [decryptGo]
    congr 1
    calc kvs.attach.map (fun kv => (kv.1.1, decryptGo dec kv.1.2))
        = kvs.attach.map (fun kv => kv.1) := by
          refine List.map_congr_left (fun kv _ => ?_)
          rw [ih kv]
      _ = kvs := List.attach_map_subtype_val kvs
  | case4 q => rw [decryptGo]

/-- C9.  `_decrypt_data` is fail-soft: when every underlying Fernet
decryption fails (wrong key or corrupted ciphertext, modelled by `dec`
returning `none`), the value — string, list or dictionary, to any
nesting depth — is returned unchanged, and no error is raised (the
function is total by construction); with no key configured the value is
likewise returned unchanged, so only the record's `encrypted` flag can
tell the two situations apart. -/
theorem decrypt_fail_soft (dec : String → Option String) (h : ∀ s, dec s = none)
    (d : PyData) : decryptData (some dec) d = d ∧ decryptData none d = d :=
  ⟨decryptGo_fail dec h d, rfl⟩

/-- Witness for C9: a nested dictionary decrypted under an
always-failing decryption function. -/
theorem decrypt_fail_soft_witness :
    decryptData (some fun _ => none)
        (PyData.dict [("k", PyData.str "x"), ("l", PyData.list [PyData.num 0])]) =
      PyData.dict [("k", PyData.str "x"), ("l", PyData.list [PyData.num 0])] ∧
    decryptData none
        (PyData.dict [("k", PyData.str "x"), ("l", PyData.list [PyData.num 0])]) =
      PyData.dict [("k", PyData.str "x"), ("l", PyData.list [PyData.num 0])] :=
  decrypt_fail_soft (fun _ => none) (fun _ => rfl) _

theorem setAssoc_setAssoc {β : Type} (d : List (String × β)) (k : String) (v v' : β) :
    setAssoc (setAssoc d k v) k v' = setAssoc d k v' := by
  by_cases h : d.any (fun p => decide (p.1 = k)) = true
  · have hany : (d.map (fun p => if p.1 = k then (k, v) else p)).any
        (fun p => decide (p.1 = k)) = true := by
      obtain ⟨p, hp, hpk⟩ := List.any_eq_true.mp h
      simp only [decide_eq_true_eq] at hpk
      refine List.any_eq_true.mpr ⟨(k, v), List.mem_map.mpr ⟨p, hp, by simp [hpk]⟩, by simp⟩
    simp only [setAssoc, h, if_true, hany, List.map_map]
    refine congrArg (fun f => List.map f d) ?_
    funext p
    by_cases hp : p.1 = k <;> simp [hp, Function.comp]
  · have hall : ∀ p ∈ d, ¬(p.1 = k) := by
      intro p hp hc
      exact h (List.any_eq_true.mpr ⟨p, hp, by simp [hc]⟩)
    have hf : d.any (fun p => decide (p.1 = k)) = false := by
      cases hx : d.any (fun p => decide (p.1 = k))
      · rfl
      · exact absurd hx h
    have hany2 : (d ++ [(k, v)]).any (fun p => decide (p.1 = k)) = true :=
      List.any_eq_true.mpr ⟨(k, v), by simp, by simp⟩
    simp only [setAssoc, hf, Bool.false_eq_true, if_false, hany2, if_true, List.map_append]
    congr 1
    · calc d.map (fun p => if p.1 = k then (k, v') else p) = d.map id :=
        List.map_congr_left fun p hp => by simp [hall p hp]
      _ = d := List.map_id d
    · simp

theorem setAssoc_fresh_length {β : Type} (d : List (String × β)) (k : String) (v : β)
    (h : d.any (fun p => decide (p.1 = k)) = false) :
    (setAssoc d k v).length = d.length + 1 := by
  unfold setAssoc
  rw [h]
  simp

/-- C8 (counterexample).  Two updates of the same record in the same
second build the same history filename `20250101120000_update.memh`, so
the second write overwrites the first unit: starting from an empty
history directory, after two updates `get_history` holds 1 entry, not 2
— the second operation did not increase the entry count by one. -/
theorem history_same_second_update_collides :
    (MemHistory.get_history
        (MemHistory.add_history
          (MemHistory.add_history [] "20250101120000" "update"
            (MemoryRecord.mk "a" "c" [] [] 0 0 0 "" [] false))
          "20250101120000" "update"
          (MemoryRecord.mk "a" "c" [] [] 0 0 1 "" [] false))).length = 1 ∧
      (1 : ℕ) ≠ 2 := by
  refine ⟨by decide, by decide⟩

/-- C8 (amended).  Each create/update/delete appends one history unit
named `<timestamp>_<action>.memh` — the unit count grows by exactly one
whenever that filename is fresh; but a second operation with the same
timestamp and action reuses the filename and overwrites the earlier
unit, leaving the directory unchanged in size.  A create followed by a
delete (same second or later) always yields exactly 2 entries, create
first, because the two filenames differ and sort in that order. -/
theorem history_entry_accounting (d : List (String × MemoryRecord)) (ts action : String)
    (m m' mA mB : MemoryRecord)
    (hfresh : d.any (fun p => decide (p.1 = ts ++ "_" ++ action ++ ".memh")) = false) :
    (MemHistory.add_history d ts action m).length = d.length + 1 ∧
    MemHistory.add_history (MemHistory.add_history d ts action m) ts action m' =
      MemHistory.add_history d ts action m' ∧
    MemHistory.get_history
        (MemHistory.add_history
          (MemHistory.add_history [] "20250101120000" "create" mA)
          "20250101120000" "delete" mB) =
      [("20250101120000", "create", mA), ("20250101120000", "delete", mB)] := by
  refine ⟨setAssoc_fresh_length d _ m hfresh, setAssoc_setAssoc d _ m m', ?_⟩
  show MemHistory.get_history
      [("20250101120000_create.memh", mA), ("20250101120000_delete.memh", mB)] = _
  unfold MemHistory.get_history
  rw [show ([("20250101120000_create.memh", mA), ("20250101120000_delete.memh", mB)] :
      List (String × MemoryRecord)).map (·.1) =
      ["20250101120000_create.memh", "20250101120000_delete.memh"] from rfl]
  rw [show sortStr ["20250101120000_create.memh", "20250101120000_delete.memh"] =
      ["20250101120000_create.memh", "20250101120000_delete.memh"] from by decide]
  rfl

/-- Witness for the amended C8 with a fresh filename over the empty
directory and concrete snapshots. -/
theorem history_entry_accounting_witness :
    (MemHistory.add_history [] "20250101120000" "update"
        (MemoryRecord.mk "a" "c" [] [] 0 0 0 "" [] false)).length = 0 + 1 ∧
    MemHistory.add_history
        (MemHistory.add_history [] "20250101120000" "update"
          (MemoryRecord.mk "a" "c" [] [] 0 0 0 "" [] false))
        "20250101120000" "update" (MemoryRecord.mk "a" "c" [] [] 0 0 1 "" [] false) =
      MemHistory.add_history [] "20250101120000" "update"
        (MemoryRecord.mk "a" "c" [] [] 0 0 1 "" [] false) ∧
    MemHistory.get_history
        (MemHistory.add_history
          (MemHistory.add_history [] "20250101120000" "create"
            (MemoryRecord.mk "a" "c" [] [] 0 0 0 "" [] false))
          "20250101120000" "delete" (MemoryRecord.mk "a" "c" [] [] 0 0 1 "" [] false)) =
      [("20250101120000", "create", MemoryRecord.mk "a" "c" [] [] 0 0 0 "" [] false),
       ("20250101120000", "delete", MemoryRecord.mk "a" "c" [] [] 0 0 1 "" [] false)] :=
  history_entry_accounting [] "20250101120000" "update"
    (MemoryRecord.mk "a" "c" [] [] 0 0 0 "" [] false)
    (MemoryRecord.mk "a" "c" [] [] 0 0 1 "" [] false)
    (MemoryRecord.mk "a" "c" [] [] 0 0 0 "" [] false)
    (MemoryRecord.mk "a" "c" [] [] 0 0 1 "" [] false) (by decide)

theorem filterFunc_no_known_field (pf : String → Option ℚ) (wc : String) (m : MemoryRecord)
    (h1 : pyContains wc "tags" = false) (h2 : pyContains wc "encrypted" = false)
    (h3 : pyContains wc "content" = false) (h4 : pyContains wc "id" = false)
    (h5 : pyContains wc "importance" = false) (h6 : pyContains wc "created_at" = false)
    (h7 : pyContains wc "updated_at" = false) (h8 : pyContains wc "source" = false) :
    filterFunc pf wc m = some true := by
  by_cases hne : wc = ""
  · subst hne; rfl
  · rw [filterFunc, if_neg hne, h1, h2, h3, h4, h5, h6, h7, h8]
    rfl

/-- C5 (counterexample).  Executing `SELECT WHERE foo = 1` — a `WHERE`
clause naming the unrecognised field `foo` — surfaces no error at all
(no `InvalidQuery` type exists in the code) and silently matches every
record: both stored records are returned, with the store unchanged. -/
theorem unknown_field_select_matches_all :
    MemQL.execute (fun _ => some 0) (fun _ => some 0) (fun _ => [])
        ⟨[("a", MemoryRecord.mk "a" "c" [] [] 0 0 0 "" [] false),
          ("b", MemoryRecord.mk "b" "d" [] [] 0 0 0 "" [] false)], []⟩ 0
        "SELECT WHERE foo = 1" =
      some ([MemoryRecord.mk "a" "c" [] [] 0 0 0 "" [] false,
             MemoryRecord.mk "b" "d" [] [] 0 0 0 "" [] false],
        ⟨[("a", MemoryRecord.mk "a" "c" [] [] 0 0 0 "" [] false),
          ("b", MemoryRecord.mk "b" "d" [] [] 0 0 0 "" [] false)], []⟩) := by
  decide

/-- C5 (amended).  No `InvalidQuery` error exists in the engine.  A
`WHERE` clause that mentions none of the recognised field names
(`tags`, `encrypted`, `content`, `id`, `importance`, `created_at`,
`updated_at`, `source`) falls through every dispatch branch of
`filter_func` to its final `return True`, so it silently matches every
record instead of being rejected. -/
theorem unknown_field_matches_every_record (pf : String → Option ℚ) (wc : String)
    (m : MemoryRecord)
    (h1 : pyContains wc "tags" = false) (h2 : pyContains wc "encrypted" = false)
    (h3 : pyContains wc "content" = false) (h4 : pyContains wc "id" = false)
    (h5 : pyContains wc "importance" = false) (h6 : pyContains wc "created_at" = false)
    (h7 : pyContains wc "updated_at" = false) (h8 : pyContains wc "source" = false) :
    filterFunc pf wc m = some true :=
  filterFunc_no_known_field pf wc m h1 h2 h3 h4 h5 h6 h7 h8

/-- Witness for the amended C5 at the clause text ` foo = 1`. -/
theorem unknown_field_matches_every_record_witness :
    filterFunc (fun _ => none) " foo = 1" (MemoryRecord.mk "a" "c" [] [] 0 0 0 "" [] false) =
      some true :=
  unknown_field_matches_every_record (fun _ => none) " foo = 1" _
    (by decide) (by decide) (by decide) (by decide) (by decide) (by decide) (by decide)
    (by decide)

theorem findL_isSome_iff (sub : List Char) : ∀ (l : List Char) (i : ℕ),
    ((findL sub l i).isSome = true ↔ ∃ u v, l = u ++ (sub ++ v)) := by
  intro l
  induction l with
  | nil =>
    intro i
    simp only [findL]
    by_cases hs : sub.isEmpty
    · rw [if_pos hs]
      simp only [Option.isSome_some, true_iff]
      exact ⟨[], [], by simp [List.isEmpty_iff.mp hs]⟩
    · rw [if_neg hs]
      simp only [Option.isSome_none, Bool.false_eq_true, false_iff]
      rintro ⟨u, v, huv⟩
      rw [List.isEmpty_iff] at hs
      rcases u with _ | ⟨c, u⟩
      · rcases hsub : sub with _ | ⟨c, t⟩
        · exact hs hsub
        · rw [hsub] at huv; simp at huv
      · simp at huv
  | cons c cs ih =>
    intro i
    simp only [findL]
    by_cases hp : sub.isPrefixOf (c :: cs)
    · rw [if_pos hp]
      simp only [Option.isSome_some, true_iff]
      obtain ⟨t, ht⟩ := List.isPrefixOf_iff_prefix.mp hp
      exact ⟨[], t, by simp [← ht]⟩
    · rw [if_neg hp]
      rw [ih (i + 1)]
      constructor
      · rintro ⟨u, v, huv⟩
        exact ⟨c :: u, v, by simp [huv]⟩
      · rintro ⟨u, v, huv⟩
        rcases u with _ | ⟨c', u⟩
        · exfalso
          apply hp
          refine List.isPrefixOf_iff_prefix.mpr ⟨v, ?_⟩
          simpa using huv.symm
        · simp only [List.cons_append, List.cons.injEq] at huv
          exact ⟨u, v, huv.2⟩

theorem pyContains_false_of_append (pre : List Char) (s sub : String)
    (h : pyContains ⟨pre ++ s.data⟩ sub = false) : pyContains s sub = false := by
  cases hx : (findL sub.data s.data 0).isSome
  · unfold pyContains
    exact hx
  · exfalso
    obtain ⟨u, v, huv⟩ := (findL_isSome_iff sub.data s.data 0).mp hx
    have hbig : (findL sub.data (pre ++ s.data) 0).isSome = true :=
      (findL_isSome_iff sub.data (pre ++ s.data) 0).mpr
        ⟨pre ++ u, v, by rw [huv, List.append_assoc]⟩
    unfold pyContains at h
    rw [show (⟨pre ++ s.data⟩ : String).data = pre ++ s.data from rfl] at h
    rw [hbig] at h
    exact Bool.true_eq_false.mp h

theorem queryGo_pointwise_true (files : List (String × FileState))
    (pred : MemoryRecord → Option Bool) (hp : ∀ m, pred m = some true) :
    ∀ l : List (String × MemoryRecord),
      queryGo files pred l = some (l.map fun p => resolveRecord files p.1 p.2) := by
  intro l
  induction l with
  | nil => rfl
  | cons p t ih =>
    rcases p with ⟨id, m⟩
    simp only [queryGo, hp, ih, List.map_cons, if_true]

theorem delete_preserves (tbl : MemTableState) (id : String) (p : String × MemoryRecord)
    (hp : p ∈ tbl.memories) (hne : p.1 ≠ id) :
    p ∈ (MemCore.delete_memory tbl id).2.memories := by
  unfold MemCore.delete_memory MemTableState.delete_memory
  cases hg : MemCore.get_memory tbl id
  · exact hp
  · by_cases hany : tbl.memories.any (fun q => decide (q.1 = id)) = true
    · simp only [hany, if_true]
      exact mem_delAssoc tbl.memories id p hp hne
    · simp only [Bool.not_eq_true] at hany
      simp only [hany, Bool.false_eq_true, if_false]
      exact hp

theorem delete_false_id (tbl : MemTableState) (id : String) (tbl' : MemTableState)
    (h : MemCore.delete_memory tbl id = (false, tbl')) : tbl' = tbl := by
  unfold MemCore.delete_memory MemTableState.delete_memory at h
  cases hg : MemCore.get_memory tbl id <;> rw [hg] at h
  · exact (Prod.mk.injEq .. ▸ h).2.symm
  · by_cases hany : tbl.memories.any (fun q => decide (q.1 = id)) = true
    · rw [if_pos hany] at h
      exact absurd (Prod.mk.injEq .. ▸ h).1 (by simp)
    · simp only [Bool.not_eq_true] at hany
      rw [hany] at h
      simp only [Bool.false_eq_true, if_false] at h
      exact (Prod.mk.injEq .. ▸ h).2.symm

theorem mem_setAssoc_of_ne {β : Type} (l : List (String × β)) (k : String) (v : β)
    (p : String × β) (hp : p ∈ l) (hne : p.1 ≠ k) : p ∈ setAssoc l k v := by
  unfold setAssoc
  by_cases hany : l.any (fun q => decide (q.1 = k)) = true
  · rw [if_pos hany]
    refine List.mem_map.mpr ⟨p, hp, ?_⟩
    rw [if_neg hne]
  · rw [if_neg hany]
    exact List.mem_append_left _ hp

theorem update_preserves (embed : String → List ℚ) (tbl : MemTableState) (now : ℚ)
    (id : String) (fields : List (String × FieldVal)) (p : String × MemoryRecord)
    (hp : p ∈ tbl.memories) (hne : p.1 ≠ id) :
    p ∈ (MemCore.update_memory embed tbl now id fields).2.memories := by
  unfold MemCore.update_memory
  cases hg : MemCore.get_memory tbl id with
  | none => exact hp
  | some m =>
    have hg' : MemTableState.get_memory tbl id = some m := hg
    unfold MemTableState.update_memory
    rw [hg']
    exact mem_setAssoc_of_ne tbl.memories id _ p hp hne

theorem deleteLoop_length : ∀ (ms : List MemoryRecord) (tbl : MemTableState),
    (deleteLoop tbl ms).1.length ≤ ms.length := by
  intro ms
  induction ms with
  | nil => intro tbl; simp [deleteLoop]
  | cons m t ih =>
    intro tbl
    unfold deleteLoop
    cases hd : MemCore.delete_memory tbl m.id with
    | mk b tbl1 =>
      cases b
      · calc (deleteLoop tbl1 t).1.length ≤ t.length := ih tbl1
          _ ≤ (m :: t).length := by simp
      · simpa using ih tbl1

theorem deleteLoop_keeps : ∀ (ms : List MemoryRecord) (tbl : MemTableState)
    (p : String × MemoryRecord), p ∈ tbl.memories →
    p.1 ∉ (deleteLoop tbl ms).1.map MemoryRecord.id →
    p ∈ (deleteLoop tbl ms).2.memories := by
  intro ms
  induction ms with
  | nil => intro tbl p hp _; exact hp
  | cons m t ih =>
    intro tbl p hp hnd
    unfold deleteLoop at hnd ⊢
    cases hd : MemCore.delete_memory tbl m.id with
    | mk b tbl1 =>
      rw [hd] at hnd
      cases b
      · have h1 : tbl1 = tbl := delete_false_id tbl m.id tbl1 hd
        subst h1
        exact ih _ p hp hnd
      · simp only [List.map_cons, List.mem_cons, not_or] at hnd
        have hp1 : p ∈ tbl1.memories := by
          have hkeep := delete_preserves tbl m.id p hp hnd.1
          rw [hd] at hkeep
          exact hkeep
        exact ih tbl1 p hp1 hnd.2

theorem updateLoop_length (embed : String → List ℚ) (now : ℚ)
    (fields : List (String × FieldVal)) : ∀ (ms : List MemoryRecord) (tbl : MemTableState),
    (updateLoop embed now fields tbl ms).1.length ≤ ms.length := by
  intro ms
  induction ms with
  | nil => intro tbl; simp [updateLoop]
  | cons m t ih =>
    intro tbl
    unfold updateLoop
    cases hd : MemCore.update_memory embed tbl now m.id fields with
    | mk b tbl1 =>
      cases b with
      | false => exact Nat.le_succ_of_le (ih tbl1)
      | true =>
        show (match MemCore.get_memory tbl1 m.id with
          | some um => (um :: (updateLoop embed now fields tbl1 t).1,
              (updateLoop embed now fields tbl1 t).2)
          | none => updateLoop embed now fields tbl1 t).1.length ≤ t.length + 1
        cases hg : MemCore.get_memory tbl1 m.id with
        | none => exact Nat.le_succ_of_le (ih tbl1)
        | some um => exact Nat.succ_le_succ (ih tbl1)

theorem updateLoop_keeps (embed : String → List ℚ) (now : ℚ)
    (fields : List (String × FieldVal)) : ∀ (ms : List MemoryRecord) (tbl : MemTableState)
    (p : String × MemoryRecord), p ∈ tbl.memories → p.1 ∉ ms.map MemoryRecord.id →
    p ∈ (updateLoop embed now fields tbl ms).2.memories := by
  intro ms
  induction ms with
  | nil => intro tbl p hp _; exact hp
  | cons m t ih =>
    intro tbl p hp hnd
    simp only [List.map_cons, List.mem_cons, not_or] at hnd
    unfold updateLoop
    cases hd : MemCore.update_memory embed tbl now m.id fields with
    | mk b tbl1 =>
      have hp1 : p ∈ tbl1.memories := by
        have hkeep := update_preserves embed tbl now m.id fields p hp hnd.1
        rw [hd] at hkeep
        exact hkeep
      cases b with
      | false => exact ih tbl1 p hp1 hnd.2
      | true =>
        show p ∈ (match MemCore.get_memory tbl1 m.id with
          | some um => (um :: (updateLoop embed now fields tbl1 t).1,
              (updateLoop embed now fields tbl1 t).2)
          | none => updateLoop embed now fields tbl1 t).2.memories
        cases MemCore.get_memory tbl1 m.id with
        | none => exact ih tbl1 p hp1 hnd.2
        | some um => exact ih tbl1 p hp1 hnd.2

theorem executeSelect_where_default (pf : String → Option ℚ) (pint : String → Option ℤ)
    (tbl : MemTableState) (w : String)
    (hl : pyContains (pyUpper ("SELECT WHERE " ++ w)) "LIMIT" = false)
    (ho : pyContains (pyUpper ("SELECT WHERE " ++ w)) "ORDER BY" = false)
    (hv : pyContains (pyUpper ("SELECT WHERE " ++ w)) "VECTOR" = false)
    (hs : pyContains (pyUpper ("SELECT WHERE " ++ w)) "SCORE" = false) :
    executeSelect pf pint tbl ("SELECT WHERE " ++ w) =
      (tbl.query (filterFunc pf (" " ++ w))).map (fun rs => rs.take 50) := by
  have hS1 : pyStartsWith (pyUpper ("SELECT WHERE " ++ w)) "SELECT" = true := rfl
  have hS2 : pyContains (pyUpper ("SELECT WHERE " ++ w)) "WHERE" = true := rfl
  have hS3 : pyFind (pyUpper ("SELECT WHERE " ++ w)) "WHERE" = 7 := rfl
  have hS4 : pySliceFrom ("SELECT WHERE " ++ w) ((7 : ℤ) + 5) = " " ++ w := rfl
  have hD : pyContains (pyUpper "") "DESC" = false := rfl
  have hOrd : pyContains (pyUpper (" " ++ w)) "ORDER BY" = false := by
    refine pyContains_false_of_append
      ['S', 'E', 'L', 'E', 'C', 'T', ' ', 'W', 'H', 'E', 'R', 'E']
      (pyUpper (" " ++ w)) "ORDER BY" ?_
    exact ho
  unfold executeSelect
  simp only [hS1, hS2, hS3, hS4, hD, hOrd, hl, ho, hv, hs, if_true, Bool.false_eq_true,
    if_false, ne_eq, Int.toNat_ofNat, reduceIte]
  cases tbl.query (filterFunc pf (" " ++ w)) <;> rfl

/-- C10.  A MemQL mutating statement with a `WHERE` clause and no
explicit `LIMIT` enumerates its targets through a `SELECT` that applies
the default limit of 50.  `DELETE WHERE ...` — whose code parses and is
embedded faithfully — deletes at most 50 records and every non-deleted
index entry is left in place (so with more than 50 matches, matching
records remain).  `UPDATE ... SET ... WHERE ...` reaches the
spec-modelled `executeUpdate` (the real `_execute_update` is
syntactically invalid and can never run), under which it updates at most
50 records and every index entry outside its first 50 targets is left in
place. -/
theorem memql_mutation_default_limit_50
    (pf : String → Option ℚ) (pint : String → Option ℤ) (embed : String → List ℚ)
    (tbl tblU : MemTableState) (now : ℚ) (w : String) (hits : List MemoryRecord)
    (hne : (pyUpper (pyStrip ("DELETE WHERE " ++ w)) == "DELETE *") = false)
    (hl : pyContains (pyUpper ("SELECT WHERE " ++ pyStrip w)) "LIMIT" = false)
    (ho : pyContains (pyUpper ("SELECT WHERE " ++ pyStrip w)) "ORDER BY" = false)
    (hv : pyContains (pyUpper ("SELECT WHERE " ++ pyStrip w)) "VECTOR" = false)
    (hs : pyContains (pyUpper ("SELECT WHERE " ++ pyStrip w)) "SCORE" = false)
    (hq : tbl.query (filterFunc pf (" " ++ pyStrip w)) = some hits)
    (hgt : 50 < hits.length) :
    (∃ deleted tbl',
      executeDelete pf pint tbl ("DELETE WHERE " ++ w) = some (deleted, tbl') ∧
      deleted.length ≤ 50 ∧
      ∀ p ∈ tbl.memories, p.1 ∉ deleted.map MemoryRecord.id → p ∈ tbl'.memories) ∧
    (∃ updated tblU',
      executeUpdate pf pint embed tblU now "UPDATE SET source=\"s\" WHERE foo = 1" =
        some (updated, tblU') ∧ updated.length ≤ 50 ∧
      ∀ p ∈ tblU.memories,
        p.1 ∉ (((tblU.memories.map fun q => resolveRecord tblU.files q.1 q.2).take 50).map
          MemoryRecord.id) → p ∈ tblU'.memories) := by
  constructor
  · have hdel : executeDelete pf pint tbl ("DELETE WHERE " ++ w) =
        some (deleteLoop tbl (hits.take 50)) := by
      unfold executeDelete
      rw [hne]
      simp only [Bool.false_eq_true, if_false]
      have hD4 : pyStrip (pySliceFrom ("DELETE WHERE " ++ w)
          (pyFind (pyUpper ("DELETE WHERE " ++ w)) "WHERE" + 5)) = pyStrip w := rfl
      rw [hD4, executeSelect_where_default pf pint tbl (pyStrip w) hl ho hv hs, hq]
      rfl
    refine ⟨(deleteLoop tbl (hits.take 50)).1, (deleteLoop tbl (hits.take 50)).2,
      by rw [hdel], ?_, ?_⟩
    · calc (deleteLoop tbl (hits.take 50)).1.length
          ≤ (hits.take 50).length := deleteLoop_length _ _
        _ ≤ 50 := by rw [List.length_take]; exact min_le_left _ _
    · intro p hp hnd
      exact deleteLoop_keeps (hits.take 50) tbl p hp hnd
  · have hupd : executeUpdate pf pint embed tblU now
        "UPDATE SET source=\"s\" WHERE foo = 1" =
        match executeSelect pf pint tblU ("SELECT WHERE " ++ "foo = 1") with
        | none => none
        | some ms => some (updateLoop embed now [("source", FieldVal.s "s")] tblU ms) := rfl
    have hfoo : ∀ m : MemoryRecord, filterFunc pf (" " ++ "foo = 1") m = some true := by
      intro m
      exact filterFunc_no_known_field pf _ m (by decide) (by decide) (by decide) (by decide)
        (by decide) (by decide) (by decide) (by decide)
    have hsel := executeSelect_where_default pf pint tblU "foo = 1"
      (by decide) (by decide) (by decide) (by decide)
    have hq2 : tblU.query (filterFunc pf (" " ++ "foo = 1")) =
        some (tblU.memories.map fun p => resolveRecord tblU.files p.1 p.2) :=
      queryGo_pointwise_true tblU.files _ hfoo tblU.memories
    rw [hq2] at hsel
    refine ⟨(updateLoop embed now [("source", FieldVal.s "s")] tblU
        ((tblU.memories.map fun p => resolveRecord tblU.files p.1 p.2).take 50)).1,
      (updateLoop embed now [("source", FieldVal.s "s")] tblU
        ((tblU.memories.map fun p => resolveRecord tblU.files p.1 p.2).take 50)).2,
      ?_, ?_, ?_⟩
    · rw [hupd, hsel]
      rfl
    · calc (updateLoop embed now [("source", FieldVal.s "s")] tblU
            ((tblU.memories.map fun p => resolveRecord tblU.files p.1 p.2).take 50)).1.length
          ≤ ((tblU.memories.map fun p => resolveRecord tblU.files p.1 p.2).take 50).length :=
            updateLoop_length _ _ _ _ _
        _ ≤ 50 := by rw [List.length_take]; exact min_le_left _ _
    · intro p hp hnd
      exact updateLoop_keeps embed now [("source", FieldVal.s "s")]
        ((tblU.memories.map fun q => resolveRecord tblU.files q.1 q.2).take 50) tblU p hp hnd

/-- Witness for C10: a 51-record store and the clause `foo = 1` (which
matches every record), for both the delete and the update statement. -/
theorem memql_mutation_default_limit_50_witness :
    (∃ deleted tbl',
      executeDelete (fun _ => none) (fun _ => none)
          ⟨(List.range 51).map (fun i => ((⟨[Char.ofNat (65 + i)]⟩ : String),
              MemoryRecord.mk ⟨[Char.ofNat (65 + i)]⟩ "c" [] [] 0 0 0 "" [] false)), []⟩
          ("DELETE WHERE " ++ "foo = 1") = some (deleted, tbl') ∧
      deleted.length ≤ 50 ∧
      ∀ p ∈ ((List.range 51).map (fun i => ((⟨[Char.ofNat (65 + i)]⟩ : String),
          MemoryRecord.mk ⟨[Char.ofNat (65 + i)]⟩ "c" [] [] 0 0 0 "" [] false))),
        p.1 ∉ deleted.map MemoryRecord.id → p ∈ tbl'.memories) ∧
    (∃ updated tblU',
      executeUpdate (fun _ => none) (fun _ => none) (fun _ => [])
          ⟨(List.range 51).map (fun i => ((⟨[Char.ofNat (65 + i)]⟩ : String),
              MemoryRecord.mk ⟨[Char.ofNat (65 + i)]⟩ "c" [] [] 0 0 0 "" [] false)), []⟩
          0 "UPDATE SET source=\"s\" WHERE foo = 1" =
        some (updated, tblU') ∧ updated.length ≤ 50 ∧
      ∀ p ∈ ((List.range 51).map (fun i => ((⟨[Char.ofNat (65 + i)]⟩ : String),
          MemoryRecord.mk ⟨[Char.ofNat (65 + i)]⟩ "c" [] [] 0 0 0 "" [] false))),
        p.1 ∉ ((((List.range 51).map (fun i => ((⟨[Char.ofNat (65 + i)]⟩ : String),
              MemoryRecord.mk ⟨[Char.ofNat (65 + i)]⟩ "c" [] [] 0 0 0 "" [] false))).map
            (fun q => resolveRecord [] q.1 q.2)).take 50).map MemoryRecord.id →
          p ∈ tblU'.memories) :=
  memql_mutation_default_limit_50 (fun _ => none) (fun _ => none) (fun _ => [])
    ⟨(List.range 51).map (fun i => ((⟨[Char.ofNat (65 + i)]⟩ : String),
        MemoryRecord.mk ⟨[Char.ofNat (65 + i)]⟩ "c" [] [] 0 0 0 "" [] false)), []⟩
    ⟨(List.range 51).map (fun i => ((⟨[Char.ofNat (65 + i)]⟩ : String),
        MemoryRecord.mk ⟨[Char.ofNat (65 + i)]⟩ "c" [] [] 0 0 0 "" [] false)), []⟩
    0 "foo = 1"
    ((List.range 51).map (fun i =>
        MemoryRecord.mk ⟨[Char.ofNat (65 + i)]⟩ "c" [] [] 0 0 0 "" [] false))
    (by decide) (by decide) (by decide) (by decide) (by decide) (by decide) (by decide)

end Memcore

namespace Memco

theorem allZero_not_101 : ¬ (allZero [(1 : ℝ), 0] ∨ allZero [(1 : ℝ), 0]) := by
  rintro (h | h) <;> exact one_ne_zero (h 1 (by simp))

theorem allZero_not_q01 : ¬ (allZero [(1 : ℝ), 0] ∨ allZero [(0 : ℝ), 1]) := by
  rintro (h | h)
  · exact one_ne_zero (h 1 (by simp))
  · exact one_ne_zero (h 1 (by simp))

theorem allZero_not_q11 : ¬ (allZero [(1 : ℝ), 0] ∨ allZero [(1 : ℝ), 1]) := by
  rintro (h | h)
  · exact one_ne_zero (h 1 (by simp))
  · exact one_ne_zero (h 1 (by simp))

theorem cosine_queryA : cosineSimilarity [(1 : ℝ), 0] [1, 0] = 1 := by
  rw [cosineSimilarity, if_neg allZero_not_101]
  have hdot : dotR [(1 : ℝ), 0] [1, 0] = 1 := by
    simp [dotR]
  have hn : normR [(1 : ℝ), 0] = 1 := by
    simp [normR]
  rw [hdot, hn, one_mul, div_one]

theorem cosine_queryB : cosineSimilarity [(1 : ℝ), 0] [0, 1] = 0 := by
  rw [cosineSimilarity, if_neg allZero_not_q01]
  have hdot : dotR [(1 : ℝ), 0] [0, 1] = 0 := by
    simp [dotR]
  rw [hdot, zero_div]

theorem cosine_queryC : cosineSimilarity [(1 : ℝ), 0] [1, 1] = Real.sqrt 2 / 2 := by
  have h2pos : (0 : ℝ) < Real.sqrt 2 := Real.sqrt_pos.mpr (by norm_num)
  have hs2 : Real.sqrt 2 * Real.sqrt 2 = 2 := Real.mul_self_sqrt (by norm_num)
  rw [cosineSimilarity, if_neg allZero_not_q11]
  have hdot : dotR [(1 : ℝ), 0] [1, 1] = 1 := by
    simp [dotR]
  have hn1 : normR [(1 : ℝ), 0] = 1 := by
    simp [normR]
  have hn2 : normR [(1 : ℝ), 1] = Real.sqrt 2 := by
    simp [normR]
    norm_num
  rw [hdot, hn1, hn2, one_mul]
  rw [div_eq_div_iff (ne_of_gt h2pos) (by norm_num : (2 : ℝ) ≠ 0)]
  linarith [hs2]

/-- C3.  Cosine similarity is `dot(a,b) / (|a|·|b|)` with an all-zero
vector on either side scoring `0.0` rather than NaN, and `search` sorts
the stored vectors by descending similarity and truncates to `topK`:
with `[1,0]`, `[0,1]`, `[1,1]` stored under A, B, C, searching `[1,0]`
with `topK = 3` returns A first with score 1, then C with score
`√2/2 ≈ 0.707` (strictly between 0.707 and 0.708), then B with score 0. -/
theorem vector_search_cosine_correct :
    (∀ a b : List ℝ, (allZero a ∨ allZero b) → cosineSimilarity a b = 0) ∧
    VectorSearch.search [("A", [1, 0]), ("B", [0, 1]), ("C", [1, 1])] [1, 0] 3 =
      [("A", 1), ("C", Real.sqrt 2 / 2), ("B", 0)] ∧
    (0.707 : ℝ) < Real.sqrt 2 / 2 ∧ Real.sqrt 2 / 2 < 0.708 := by
  have h2pos : (0 : ℝ) < Real.sqrt 2 := Real.sqrt_pos.mpr (by norm_num)
  have hs2 : Real.sqrt 2 * Real.sqrt 2 = 2 := Real.mul_self_sqrt (by norm_num)
  have hlow : (1.414 : ℝ) < Real.sqrt 2 := by nlinarith [hs2, h2pos]
  have hhigh : Real.sqrt 2 < 1.416 := by nlinarith [hs2, h2pos]
  refine ⟨?_, ?_, by linarith, by linarith⟩
  · intro a b h
    rw [cosineSimilarity, if_pos h]
  · unfold VectorSearch.search
    rw [show ([("A", [(1 : ℝ), 0]), ("B", [0, 1]), ("C", [1, 1])].map
        fun p => (p.1, cosineSimilarity [1, 0] p.2)) =
        [("A", 1), ("B", 0), ("C", Real.sqrt 2 / 2)] from by
      simp [cosine_queryA, cosine_queryB, cosine_queryC]]
    have hb : (0 : ℝ) < Real.sqrt 2 / 2 := by positivity
    have ha : ¬ ((1 : ℝ) < Real.sqrt 2 / 2) := by
      push_neg
      nlinarith [hs2, h2pos]
    simp only [sortDescR, insertDescR]
    rw [if_pos hb]
    simp only [insertDescR]
    rw [if_neg ha]
    rfl

/-- Witness for C3's zero-vector clause at a concrete all-zero vector. -/
theorem vector_search_cosine_correct_witness :
    cosineSimilarity [(0 : ℝ)] [3] = 0 :=
  vector_search_cosine_correct.1 [0] [3] (Or.inl (fun x hx => by simpa using hx))
end Memco
